import Mathlib

/-!
Verification of the core of the CryptoShamirSecretSharing repository
(Shamir secret sharing over image pixel arrays).

The Python sources under `src/core/` are embedded shallowly:

* `field_math.py` → `is_prime`, `next_prime`, `modinv`,
  `lagrange_coeffs_at_zero`. These are pure Python integer functions and are
  embedded with exact `Int`/`Nat` arithmetic. The `while` loops become
  well-founded recursions (`is_prime_loop`, `modinv_loop`); the unbounded
  upward scan of `next_prime` is embedded as the least candidate above `n`
  passing `is_prime`, which is exactly what the scan computes.
* `shamir.py` → `split_image_into_shares`, `reconstruct_from_shares`.
  Pixel arrays (numpy `H×W` or `H×W×3` arrays) are embedded
  position-flattened as `List Int`: every array operation in the source is
  elementwise, one independent polynomial per position, so the grid shape
  plays no role beyond its element count. numpy `int64` intermediate
  arithmetic wraps on overflow and is embedded through `wrap64`; the
  `astype(np.uint32)` of stored shares and the final
  `uint8`/`uint16`/`uint32` downcast are embedded through `wrap32` and
  truncating `%`. The `rng.integers(0, prime, ...)` draws are embedded as an
  explicit coefficient source `rand : Nat → Nat → Int` (coefficient index,
  position index), quantified in the theorems with the bound `[0, prime)`
  that `rng.integers` guarantees.
* `share_io.py` → `ShareData`, `validate_shares_compatible`. Only the
  metadata triple (prime, mode, original shape) is embedded: the function
  never touches the share arrays.

Python exceptions become `Except PyError`; `ValueError` and
`ZeroDivisionError` keep their messages (without the interpolated values).
-/

/-- A raised Python exception: the class and (a brace-free rendering of) the
message. -/
inductive PyError where
  | valueError (msg : String)
  | zeroDivisionError (msg : String)
deriving DecidableEq, Repr

/-- Two's-complement wraparound of numpy `int64` arithmetic: the value an
`int64` slot holds after storing the exact integer `v`. -/
def wrap64 (v : Int) : Int := (v + 2 ^ 63) % 2 ^ 64 - 2 ^ 63

/-- Truncation performed by `astype(np.uint32)` on a numpy integer value. -/
def wrap32 (v : Int) : Int := v % 2 ^ 32

/-- `np.max` of a nonempty array embedded as a list (the sources only apply
it to nonempty arrays; on `[]` numpy raises, which the embeddings of the
callers reproduce with an explicit emptiness check). -/
def list_max (l : List Int) : Int := l.foldl max (l.headD 0)

/-- A Python `for` loop that appends one computed value per element and lets
exceptions propagate: stops at the first error. -/
def map_except {α β : Type} (f : α → Except PyError β) : List α → Except PyError (List β)
  | [] => .ok []
  | a :: l =>
    match f a with
    | .error e => .error e
    | .ok b =>
      match map_except f l with
      | .error e => .error e
      | .ok rest => .ok (b :: rest)

/-- The trial-division `while` loop of `is_prime` (`field_math.py`): scan odd
candidate divisors `i, i+2, ...` while `i * i <= n`. -/
def is_prime_loop (n i : ℕ) : Bool :=
  if i * i ≤ n then
    if n % i = 0 then false
    else is_prime_loop n (i + 2)
  else true
termination_by n + 1 - i
decreasing_by
  rcases Nat.eq_zero_or_pos i with h0 | hpos
  · omega
  · have hi : i ≤ i * i := Nat.le_mul_of_pos_left i hpos
    omega

/-- `is_prime` from `field_math.py`: primality by trial division. The Python
function takes a (signed) int but every call site passes a nonnegative value;
the `n < 2` guard makes the nonnegative embedding exact on that range. -/
def is_prime (n : ℕ) : Bool :=
  if n < 2 then false
  else if n = 2 then true
  else if n % 2 = 0 then false
  else is_prime_loop n 3

theorem is_prime_loop_iff (n : ℕ) :
    ∀ i, 0 < i →
      (is_prime_loop n i = true ↔
        ∀ t : ℕ, (i + 2 * t) * (i + 2 * t) ≤ n → n % (i + 2 * t) ≠ 0) := by
  suffices H : ∀ d i, n + 1 - i ≤ d → 0 < i →
      (is_prime_loop n i = true ↔
        ∀ t : ℕ, (i + 2 * t) * (i + 2 * t) ≤ n → n % (i + 2 * t) ≠ 0) by
    exact fun i hi => H (n + 1) i (by omega) hi
  intro d
  induction d with
  | zero =>
    intro i hle hi
    have hin : n < i := by omega
    have hsq : n < i * i := lt_of_lt_of_le hin (Nat.le_mul_of_pos_left i hi)
    rw [is_prime_loop.eq_def, if_neg (by omega)]
    refine iff_of_true rfl ?_
    intro t ht
    have hmul : i * i ≤ (i + 2 * t) * (i + 2 * t) :=
      Nat.mul_le_mul (by omega) (by omega)
    omega
  | succ d ih =>
    intro i hle hi
    rw [is_prime_loop.eq_def]
    by_cases hsq : i * i ≤ n
    · rw [if_pos hsq]
      have hin : i ≤ n := le_trans (Nat.le_mul_of_pos_left i hi) hsq
      by_cases hdvd : n % i = 0
      · rw [if_pos hdvd]
        refine iff_of_false (by simp) ?_
        intro hall
        exact (hall 0 (by simpa using hsq)) (by simpa using hdvd)
      · rw [if_neg hdvd]
        rw [ih (i + 2) (by omega) (by omega)]
        constructor
        · intro h t
          match t with
          | 0 =>
            intro ht hc
            exact hdvd (by simpa using hc)
          | t' + 1 =>
            have harg : i + 2 * (t' + 1) = i + 2 + 2 * t' := by ring
            rw [harg]
            exact h t'
        · intro h t
          have harg : i + 2 + 2 * t = i + 2 * (t + 1) := by ring
          rw [harg]
          exact h (t + 1)
    · rw [if_neg hsq]
      refine iff_of_true rfl ?_
      intro t ht
      have hmul : i * i ≤ (i + 2 * t) * (i + 2 * t) :=
        Nat.mul_le_mul (by omega) (by omega)
      omega

theorem is_prime_iff_prime (n : ℕ) : is_prime n = true ↔ n.Prime := by
  rw [is_prime]
  by_cases h2 : n < 2
  · rw [if_pos h2]
    exact iff_of_false (by simp) (fun hp => absurd hp.two_le (by omega))
  · rw [if_neg h2]
    by_cases heq : n = 2
    · subst heq
      rw [if_pos rfl]
      exact iff_of_true rfl Nat.prime_two
    · rw [if_neg heq]
      by_cases heven : n % 2 = 0
      · rw [if_pos heven]
        refine iff_of_false (by simp) (fun hp => heq ?_)
        exact (Nat.Prime.even_iff hp).mp (Nat.even_iff.mpr heven)
      · rw [if_neg heven]
        rw [is_prime_loop_iff n 3 (by omega)]
        constructor
        · intro h
          rw [Nat.prime_def_le_sqrt]
          refine ⟨by omega, fun m hm2 hmsqrt hmdvd => ?_⟩
          have hmm : m * m ≤ n := Nat.le_sqrt.mp hmsqrt
          have hmod : n % m = 0 := Nat.dvd_iff_mod_eq_zero.mp hmdvd
          by_cases hme : m % 2 = 0
          · have h2m : (2 : ℕ) ∣ m := Nat.dvd_iff_mod_eq_zero.mpr hme
            exact heven (Nat.dvd_iff_mod_eq_zero.mp (dvd_trans h2m hmdvd))
          · have hm3 : 3 ≤ m := by omega
            have hrep : m = 3 + 2 * ((m - 3) / 2) := by omega
            exact h ((m - 3) / 2) (by rw [← hrep]; exact hmm) (by rw [← hrep]; exact hmod)
        · intro hp t ht hmod
          have hdvd : (3 + 2 * t) ∣ n := Nat.dvd_iff_mod_eq_zero.mpr hmod
          rcases hp.eq_one_or_self_of_dvd _ hdvd with h1 | hself
          · omega
          · rw [← hself] at ht
            nlinarith [hp.two_le]

theorem next_prime_exists (n : ℕ) : ∃ c, n < c ∧ is_prime c = true := by
  obtain ⟨q, hq1, hq2⟩ := Nat.exists_infinite_primes (n + 1)
  exact ⟨q, by omega, (is_prime_iff_prime q).mpr hq2⟩

/-- `next_prime` from `field_math.py`: scan `n+1, n+2, ...` and return the
first candidate passing `is_prime`; embedded as the least such candidate,
which is the value the scan returns (it exists by the infinitude of
primes, so the scan terminates). -/
def next_prime (n : ℕ) : ℕ := Nat.find (next_prime_exists n)

/-- The extended-Euclid `while low > 1` loop of `modinv` (`field_math.py`).
State `(lm, low, hm, high)` as in the source; `low`/`high` stay nonnegative
throughout (they start at `a % p ∈ [0, p)` and `p`), so they are carried as
naturals, and the Python floor divisions and subtractions on them coincide
with the natural ones. -/
def modinv_loop (lm : Int) (low : ℕ) (hm : Int) (high : ℕ) : Int :=
  if 1 < low then
    let r : ℕ := high / low
    modinv_loop (hm - lm * (r : Int)) (high - low * r) lm low
  else lm
termination_by low
decreasing_by
  have h1 : low * (high / low) + high % low = high := Nat.div_add_mod high low
  have h2 : high % low < low := Nat.mod_lt _ (by omega)
  omega

/-- `modinv` from `field_math.py`: modular inverse by the extended Euclidean
algorithm. Reduces `a` mod `p` first and raises `ZeroDivisionError` when the
reduction is zero, exactly as the source does. -/
def modinv (a p : Int) : Except PyError Int :=
  let a1 := a % p
  if a1 = 0 then .error (.zeroDivisionError "Inverse of 0 does not exist")
  else .ok (modinv_loop 1 (a1 % p).toNat 0 p.toNat % p)

/-- The body of the `for i in range(k)` loop of `lagrange_coeffs_at_zero`
(`field_math.py`): numerator and denominator accumulated over `j ≠ i` with a
reduction mod `p` after every multiplication, then one `modinv`. `xs1` is the
already-reduced list `[int(x) % p for x in xs]`. -/
def lagrange_one (xs1 : List Int) (p : Int) (i : ℕ) : Except PyError Int :=
  let xi := xs1.getD i 0
  let num := (List.range xs1.length).foldl
    (fun acc j => if j = i then acc else (acc * (-(xs1.getD j 0))) % p) 1
  let den := (List.range xs1.length).foldl
    (fun acc j => if j = i then acc else (acc * (xi - xs1.getD j 0)) % p) 1
  (modinv den p).map (fun inv_den => (num * inv_den) % p)

/-- `lagrange_coeffs_at_zero` from `field_math.py`: the Lagrange coefficients
at `x = 0`, one per input x-coordinate, in order; a `ZeroDivisionError`
raised by `modinv` propagates from the first index where the denominator
vanishes. -/
def lagrange_coeffs_at_zero (xs : List Int) (p : Int) : Except PyError (List Int) :=
  map_except (lagrange_one (xs.map (fun x => x % p)) p) (List.range xs.length)

/-- Exact (unwrapped) Horner evaluation of the polynomial with coefficient
list `cs` (constant term first) at `x`: the mathematical value
`Σ_j cs[j] * x^j` that `shamir.py`'s evaluation loop computes up to
reductions mod the prime. -/
def poly_eval (cs : List Int) (x : Int) : Int := cs.foldr (fun c acc => c + x * acc) 0

/-- The per-position coefficient list built by `split_image_into_shares`:
`coeffs[0]` is the secret value at the position, `coeffs[1..k-1]` are the
injected random draws (`rng.integers(0, prime)` in the source). -/
def coeffs_at (secret : List Int) (rand : ℕ → ℕ → Int) (k : ℕ) (pos : ℕ) : List Int :=
  secret.getD pos 0 :: (List.range (k - 1)).map (fun j => rand (j + 1) pos)

/-- The `for j in range(k)` evaluation loop of `split_image_into_shares`
(`shamir.py`) at one array position: state `(y, x_pow)`, with
`y = (y + coeffs[j] * x_pow) % prime` in numpy `int64` (products and sums
wrap through `wrap64`) and `x_pow = (x_pow * x) % prime` in exact Python
ints. Returns the final `y`. -/
def share_step (x p : Int) (st : Int × Int) (c : Int) : Int × Int :=
  ((wrap64 (st.1 + wrap64 (c * st.2))) % p, (st.2 * x) % p)

def eval_share (cs : List Int) (x p : Int) : Int :=
  (cs.foldl (share_step x p) ((0 : Int), (1 : Int))).1

/-- `split_image_into_shares` from `shamir.py`, position-flattened. Checks
`2 <= k <= n`, then `np.max` of the secret (which raises on a zero-size
array) against the prime, then returns the mapping `x ↦ share array` for
`x = 1..n` as an ordered association list; stored share values go through
the source's `astype(np.uint32)`. -/
def split_image_into_shares (secret : List Int) (n k : ℕ) (p : Int)
    (rand : ℕ → ℕ → Int) : Except PyError (List (ℕ × List Int)) :=
  if ¬(2 ≤ k ∧ k ≤ n) then
    .error (.valueError "Require 2 <= k <= n")
  else if secret.isEmpty then
    .error (.valueError "zero-size array to reduction operation maximum which has no identity")
  else if p ≤ list_max secret then
    .error (.valueError "Image max value must be less than prime")
  else
    .ok ((List.range n).map (fun i =>
      (i + 1, (List.range secret.length).map (fun pos =>
        wrap32 (eval_share (coeffs_at secret rand k pos) ((i : Int) + 1) p)))))

/-- One term `(y_int * int(li)) % prime` of the reconstruction sum
(`shamir.py`), at one position: the share value is reduced mod `p` (exactly,
after the lossless `astype(np.int64)`) and the product wraps in `int64`. -/
def recon_term (p li y : Int) : Int := (wrap64 ((y % p) * li)) % p

/-- The `accum` loop of `reconstruct_from_shares` (`shamir.py`) at one
position: `accum` starts as the first term and each further term is added
mod `p` (the sum wrapping in `int64`). `zs` is `zip(lagrange_coeffs,
share_arrays)`. -/
def recon_accum (p : Int) (zs : List (Int × List Int)) (pos : ℕ) : Int :=
  match zs with
  | [] => 0
  | z :: rest =>
    rest.foldl
      (fun acc z1 => (wrap64 (acc + recon_term p z1.1 (z1.2.getD pos 0))) % p)
      (recon_term p z.1 (z.2.getD pos 0))

/-- The output downcast of `reconstruct_from_shares`: `uint8`, `uint16` or
`uint32` depending on `np.max` of the result, each cast truncating. -/
def dtype_cast (l : List Int) : List Int :=
  if list_max l ≤ 255 then l.map (fun v => v % 2 ^ 8)
  else if list_max l ≤ 65535 then l.map (fun v => v % 2 ^ 16)
  else l.map (fun v => v % 2 ^ 32)

/-- `reconstruct_from_shares` from `shamir.py`, position-flattened: length
checks, Lagrange coefficients (errors propagate), the accumulation
`Σ y_i * L_i mod p` per position, the final `% prime`, and the `np.max`-based
downcast (`np.max` raising on a zero-size result, i.e. on empty share
arrays). -/
def reconstruct_from_shares (share_arrays : List (List Int)) (xs : List Int)
    (p : Int) : Except PyError (List Int) :=
  if xs.length ≠ share_arrays.length then
    .error (.valueError "Number of xs must equal number of shares")
  else if xs.length < 2 then
    .error (.valueError "Need at least 2 shares to reconstruct")
  else
    (lagrange_coeffs_at_zero xs p).bind (fun ls =>
      if (share_arrays.headD []).length = 0 then
        .error (.valueError "zero-size array to reduction operation maximum which has no identity")
      else
        .ok (dtype_cast ((List.range (share_arrays.headD []).length).map (fun pos =>
          recon_accum p (ls.zip share_arrays) pos % p))))

/-- The share metadata triple carried by every saved share file
(`share_io.py`): the validator reads nothing else. -/
structure ShareData where
  prime : Int
  mode : String
  original_shape : List ℕ
deriving DecidableEq, Repr

/-- The message of the `ValueError` that `validate_shares_compatible` raises
for share `i`, determined by the first of its three fields differing from
share 0's. -/
def mismatch_msg (first s : ShareData) (i : ℕ) : String :=
  if s.prime ≠ first.prime then
    "Share " ++ toString i ++ " has different prime than share 0"
  else if s.mode ≠ first.mode then
    "Share " ++ toString i ++ " has different mode than share 0"
  else
    "Share " ++ toString i ++ " has different shape than share 0"

/-- The `for i, share_data in enumerate(share_data_list[1:], 1)` loop of
`validate_shares_compatible`: compare each later share's metadata with share
0's, raising at the first mismatch. -/
def validate_loop (first : ShareData) (rest : List ShareData) (i : ℕ) :
    Except PyError Bool :=
  match rest with
  | [] => .ok true
  | s :: rest1 =>
    if s.prime ≠ first.prime ∨ s.mode ≠ first.mode ∨
        s.original_shape ≠ first.original_shape then
      .error (.valueError (mismatch_msg first s i))
    else validate_loop first rest1 (i + 1)

/-- `validate_shares_compatible` from `share_io.py`: raises on an empty
list, otherwise compares every share's metadata against the first share's
and returns `True` when all agree. Pure metadata check: the embedding's
`ShareData` does not even contain the share array. -/
def validate_shares_compatible (share_data_list : List ShareData) :
    Except PyError Bool :=
  match share_data_list with
  | [] => .error (.valueError "No shares provided")
  | first :: rest => validate_loop first rest 1

theorem wrap64_eq_self {v : Int} (h1 : -(2 ^ 63) ≤ v) (h2 : v < 2 ^ 63) :
    wrap64 v = v := by
  have h3 : (0 : Int) ≤ v + 2 ^ 63 := by omega
  have h4 : v + 2 ^ 63 < 2 ^ 64 := by omega
  rw [wrap64, Int.emod_eq_of_lt h3 h4]
  omega

theorem wrap32_eq_self {v : Int} (h1 : 0 ≤ v) (h2 : v < 2 ^ 32) :
    wrap32 v = v := Int.emod_eq_of_lt h1 h2

theorem emod_nonneg_lt (a : Int) {p : Int} (hp : 0 < p) :
    0 ≤ a % p ∧ a % p < p :=
  ⟨Int.emod_nonneg a (by omega), Int.emod_lt_of_pos a hp⟩

theorem int_eq_of_zmod_eq {p : ℕ} {a b : Int} (ha0 : 0 ≤ a) (ha1 : a < p)
    (hb0 : 0 ≤ b) (hb1 : b < p) (h : (a : ZMod p) = (b : ZMod p)) : a = b := by
  have hmod : a % (p : Int) = b % (p : Int) :=
    (ZMod.intCast_eq_intCast_iff a b p).mp h
  rwa [Int.emod_eq_of_lt ha0 ha1, Int.emod_eq_of_lt hb0 hb1] at hmod

theorem list_max_is_ub (l : List Int) : ∀ v ∈ l, v ≤ list_max l := by
  have key : ∀ (t : List Int) (acc : Int), acc ≤ t.foldl max acc ∧
      ∀ v ∈ t, v ≤ t.foldl max acc := by
    intro t
    induction t with
    | nil => intro acc; exact ⟨le_refl _, by simp⟩
    | cons x t ih =>
      intro acc
      refine ⟨le_trans (le_max_left acc x) (ih (max acc x)).1, ?_⟩
      intro v hv
      rcases List.mem_cons.mp hv with rfl | hvt
      · exact le_trans (le_max_right acc v) (ih (max acc v)).1
      · exact (ih (max acc x)).2 v hvt
  intro v hv
  exact (key l (l.headD 0)).2 v hv

theorem modinv_loop_spec (a pI : Int) :
    ∀ low : ℕ, ∀ high : ℕ, ∀ lm hm : Int, 0 < low → Nat.gcd low high = 1 →
      Int.ModEq pI (lm * a) low → Int.ModEq pI (hm * a) high →
      Int.ModEq pI (modinv_loop lm low hm high * a) 1 := by
  intro low
  induction low using Nat.strong_induction_on with
  | _ low ih =>
    intro high lm hm hpos hgcd hlm hhm
    rw [modinv_loop.eq_def]
    by_cases hlow : 1 < low
    · rw [if_pos hlow]
      show Int.ModEq pI
        (modinv_loop (hm - lm * ((high / low : ℕ) : Int))
          (high - low * (high / low)) lm low * a) 1
      have hdm : low * (high / low) + high % low = high := Nat.div_add_mod high low
      have hmodlt : high % low < low := Nat.mod_lt _ (by omega)
      have hsub : high - low * (high / low) = high % low := by omega
      have hgcd2 : Nat.gcd (high % low) low = 1 := by
        rw [← Nat.gcd_rec]
        exact hgcd
      have hpos2 : 0 < high % low := by
        rcases Nat.eq_zero_or_pos (high % low) with h0 | h
        · rw [h0, Nat.gcd_zero_left] at hgcd2
          omega
        · exact h
      have hcast : ((high - low * (high / low) : ℕ) : Int) =
          (high : Int) - (low : Int) * ((high / low : ℕ) : Int) := by
        have : low * (high / low) ≤ high := by omega
        push_cast [this]
        ring
      have hlm2 : Int.ModEq pI ((hm - lm * ((high / low : ℕ) : Int)) * a)
          ((high - low * (high / low) : ℕ) : Int) := by
        rw [hcast]
        calc (hm - lm * ((high / low : ℕ) : Int)) * a
            = hm * a - ((high / low : ℕ) : Int) * (lm * a) := by ring
          _ ≡ (high : Int) - ((high / low : ℕ) : Int) * (low : Int) [ZMOD pI] :=
              hhm.sub (hlm.mul_left _)
          _ = (high : Int) - (low : Int) * ((high / low : ℕ) : Int) := by ring
      exact ih (high - low * (high / low)) (by omega) low
        (hm - lm * ((high / low : ℕ) : Int)) lm (by omega)
        (by rw [hsub]; exact hgcd2) hlm2 hlm
    · rw [if_neg hlow]
      have h1 : low = 1 := by omega
      rw [h1] at hlm
      simpa using hlm

theorem modinv_ok (p : ℕ) (hp : p.Prime) (a : Int) (ha : a % (p : Int) ≠ 0) :
    ∃ x : Int, modinv a p = .ok x ∧ 0 < x ∧ x < p ∧ (a * x) % (p : Int) = 1 := by
  have hp1 : 1 < p := hp.one_lt
  have hppos : (0 : Int) < p := by exact_mod_cast Nat.lt_of_lt_of_le Nat.zero_lt_one hp1.le
  obtain ⟨ha0, ha1⟩ := emod_nonneg_lt a hppos
  have hself : a % (p : Int) % p = a % (p : Int) := Int.emod_emod_of_dvd a dvd_rfl
  set lowI : Int := a % (p : Int) with hlowI
  have hlownat : ((lowI.toNat : ℕ) : Int) = lowI := Int.toNat_of_nonneg ha0
  have hlowpos : 0 < lowI.toNat := by omega
  have hlowlt : lowI.toNat < p := by omega
  have hgcd : Nat.gcd lowI.toNat p = 1 := by
    have hnd : ¬ p ∣ lowI.toNat := by
      intro hdvd
      have := Nat.le_of_dvd hlowpos hdvd
      omega
    have := (Nat.Prime.coprime_iff_not_dvd hp).mpr hnd
    exact Nat.Coprime.gcd_eq_one (Nat.Coprime.symm this)
  have hlm : Int.ModEq (p : Int) (1 * a) (lowI.toNat : Int) := by
    rw [one_mul, hlownat]
    show a % (p : Int) = lowI % (p : Int)
    rw [hlowI, hself]
  have hhm : Int.ModEq (p : Int) (0 * a) ((p : ℕ) : Int) := by
    show (0 * a) % (p : Int) = ((p : ℕ) : Int) % (p : Int)
    simp
  have hloop := modinv_loop_spec a (p : Int) lowI.toNat p 1 0 hlowpos hgcd hlm hhm
  refine ⟨modinv_loop 1 lowI.toNat 0 p % (p : Int), ?_, ?_, ?_, ?_⟩
  · rw [modinv]
    rw [if_neg (by rwa [← hlowI])]
    rw [← hlowI, hself]
    rfl
  · by_contra hle
    push_neg at hle
    have hx0 : modinv_loop 1 lowI.toNat 0 p % (p : Int) = 0 := by
      have := (emod_nonneg_lt (modinv_loop 1 lowI.toNat 0 p) hppos).1
      omega
    have h1mod : (1 : Int) % (p : Int) = 1 :=
      Int.emod_eq_of_lt (by omega) (by exact_mod_cast hp1)
    have hcontr : (modinv_loop 1 lowI.toNat 0 p * a) % (p : Int) = 1 % (p : Int) := hloop
    rw [Int.mul_emod, hx0] at hcontr
    simp at hcontr
    omega
  · exact (emod_nonneg_lt _ hppos).2
  · have h1mod : (1 : Int) % (p : Int) = 1 :=
      Int.emod_eq_of_lt (by omega) (by exact_mod_cast hp1)
    calc (a * (modinv_loop 1 lowI.toNat 0 p % (p : Int))) % (p : Int)
        = (a * modinv_loop 1 lowI.toNat 0 p) % (p : Int) := by
          rw [Int.mul_emod, Int.emod_emod_of_dvd _ dvd_rfl, ← Int.mul_emod]
      _ = (modinv_loop 1 lowI.toNat 0 p * a) % (p : Int) := by rw [mul_comm]
      _ = 1 % (p : Int) := hloop
      _ = 1 := h1mod

theorem inverse_mod_unique (p : ℕ) (hp : p.Prime) {a x y : Int}
    (hax : (a * x) % (p : Int) = 1) (hay : (a * y) % (p : Int) = 1)
    (hx0 : 0 ≤ x) (hx1 : x < p) (hy0 : 0 ≤ y) (hy1 : y < p) : x = y := by
  haveI : Fact p.Prime := ⟨hp⟩
  have hxz : ((a : ZMod p)) * (x : ZMod p) = 1 := by
    have := congrArg (fun t : Int => (t : ZMod p)) hax
    simpa [ZMod.intCast_mod] using this
  have hyz : ((a : ZMod p)) * (y : ZMod p) = 1 := by
    have := congrArg (fun t : Int => (t : ZMod p)) hay
    simpa [ZMod.intCast_mod] using this
  have hzz : (x : ZMod p) = (y : ZMod p) := by
    calc (x : ZMod p) = 1 * x := (one_mul _).symm
      _ = ((a : ZMod p) * y) * x := by rw [hyz]
      _ = ((a : ZMod p) * x) * y := by ring
      _ = 1 * y := by rw [hxz]
      _ = y := one_mul _
  exact int_eq_of_zmod_eq hx0 hx1 hy0 hy1 hzz

/-- C5: for every prime `p` and integer `a` with `a mod p ≠ 0`, `modinv a p`
returns the unique `x ∈ [1, p)` with `a·x ≡ 1 (mod p)`; consequently, when
moreover `a ∈ [1, p)`, `(a * modinv a p) % p = 1` and
`modinv (modinv a p) p = a` (involution). -/
theorem modinv_correct (p : ℕ) (hp : p.Prime) (a : Int)
    (ha : a % (p : Int) ≠ 0) :
    ∃ x : Int, modinv a p = .ok x ∧ 1 ≤ x ∧ x < p ∧
      (a * x) % (p : Int) = 1 ∧
      (∀ y : Int, 1 ≤ y → y < p → (a * y) % (p : Int) = 1 → y = x) ∧
      (0 ≤ a → a < p → modinv x p = .ok a) := by
  obtain ⟨x, hok, hx0, hx1, hxinv⟩ := modinv_ok p hp a ha
  refine ⟨x, hok, hx0, hx1, hxinv, ?_, ?_⟩
  · intro y hy0 hy1 hyinv
    exact inverse_mod_unique p hp hyinv hxinv (by omega) hy1 (by omega) hx1
  · intro ha0 ha1
    have hxmod : x % (p : Int) ≠ 0 := by
      rw [Int.emod_eq_of_lt (by omega) hx1]
      omega
    obtain ⟨z, hzok, hz0, hz1, hzinv⟩ := modinv_ok p hp x hxmod
    have haself : a % (p : Int) = a := Int.emod_eq_of_lt ha0 ha1
    have hane : a ≠ 0 := fun h0 => ha (by rw [h0]; simp)
    have hxa : (x * a) % (p : Int) = 1 := by rw [mul_comm]; exact hxinv
    have : z = a :=
      inverse_mod_unique p hp hzinv hxa (by omega) hz1 ha0 ha1
    rw [hzok, this]

/-- C6: `modinv a p` raises a `ZeroDivisionError` whenever `a mod p = 0`,
and never returns a value in that case. -/
theorem modinv_zero_raises (a p : Int) (h : a % p = 0) :
    modinv a p = .error (.zeroDivisionError "Inverse of 0 does not exist") ∧
    ∀ x : Int, modinv a p ≠ .ok x := by
  constructor
  · rw [modinv]
    simp [h]
  · intro x
    rw [modinv]
    simp [h]

/-- C7: for every `n ≥ 2`, `next_prime n` passes `is_prime`, is strictly
greater than `n`, and no prime lies strictly between `n` and `next_prime n`;
`is_prime` returns `false` below 2 and decides primality exactly. -/
theorem next_prime_correct (n : ℕ) (_hn : 2 ≤ n) :
    is_prime (next_prime n) = true ∧ n < next_prime n ∧
      (∀ m, n < m → m < next_prime n → ¬ m.Prime) ∧
      (∀ m, m < 2 → is_prime m = false) ∧
      (∀ m, is_prime m = true ↔ m.Prime) := by
  have hfind := Nat.find_spec (next_prime_exists n)
  refine ⟨hfind.2, hfind.1, ?_, ?_, is_prime_iff_prime⟩
  · intro m hm1 hm2 hmp
    exact (Nat.find_min (next_prime_exists n) hm2) ⟨hm1, (is_prime_iff_prime m).mpr hmp⟩
  · intro m hm
    rw [is_prime, if_pos hm]

theorem map_except_ok_iff {α β : Type} (f : α → Except PyError β) :
    ∀ l : List α, (∃ r, map_except f l = .ok r) ↔ ∀ a ∈ l, ∃ b, f a = .ok b := by
  intro l
  induction l with
  | nil => simp [map_except]
  | cons a l ih =>
    rw [map_except]
    rcases hfa : f a with e | b
    · constructor
      · rintro ⟨r, hr⟩
        cases hr
      · intro h
        obtain ⟨b, hb⟩ := h a (List.mem_cons_self a l)
        rw [hfa] at hb
        cases hb
    · rcases hrest : map_except f l with e | rest
      · constructor
        · rintro ⟨r, hr⟩
          cases hr
        · intro h
          have hall : ∀ x ∈ l, ∃ b, f x = .ok b :=
            fun x hx => h x (List.mem_cons_of_mem a hx)
          obtain ⟨r, hr⟩ := ih.mpr hall
          rw [hrest] at hr
          cases hr
      · constructor
        · rintro ⟨r, hr⟩ x hx
          rcases List.mem_cons.mp hx with rfl | hxl
          · exact ⟨b, hfa⟩
          · exact ih.mp ⟨rest, hrest⟩ x hxl
        · intro h
          exact ⟨b :: rest, rfl⟩

theorem map_except_ok_get {α β : Type} (f : α → Except PyError β) :
    ∀ (l : List α) (r : List β), map_except f l = .ok r →
      r.length = l.length ∧
        ∀ (i : ℕ) (da : α) (db : β), i < l.length →
          f (l.getD i da) = .ok (r.getD i db) := by
  intro l
  induction l with
  | nil =>
    intro r hr
    rw [map_except] at hr
    cases hr
    exact ⟨rfl, fun i da db hi => by simp at hi⟩
  | cons a l ih =>
    intro r hr
    rw [map_except] at hr
    rcases hfa : f a with e | b
    · rw [hfa] at hr
      cases hr
    · rw [hfa] at hr
      rcases hrest : map_except f l with e | rest
      · rw [hrest] at hr
        cases hr
      · rw [hrest] at hr
        cases hr
        obtain ⟨hlen, hget⟩ := ih rest hrest
        refine ⟨by simp [hlen], ?_⟩
        intro i da db hi
        match i with
        | 0 => simpa using hfa
        | i + 1 =>
          simp only [List.getD_cons_succ]
          exact hget i da db (by simpa using hi)

theorem map_except_error_iff {α β : Type} (f : α → Except PyError β) :
    ∀ l : List α, (∃ e, map_except f l = .error e) ↔ ∃ a ∈ l, ∃ e, f a = .error e := by
  intro l
  constructor
  · rintro ⟨e, he⟩
    by_contra hno
    push_neg at hno
    have hall : ∀ a ∈ l, ∃ b, f a = .ok b := by
      intro a ha
      rcases hfa : f a with e1 | b
      · exact absurd hfa (hno a ha e1)
      · exact ⟨b, rfl⟩
    obtain ⟨r, hr⟩ := (map_except_ok_iff f l).mpr hall
    rw [hr] at he
    cases he
  · rintro ⟨a, ha, e, hfa⟩
    rcases hres : map_except f l with e1 | r
    · exact ⟨e1, rfl⟩
    · obtain ⟨b, hb⟩ := (map_except_ok_iff f l).mp ⟨r, hres⟩ a ha
      rw [hfa] at hb
      cases hb

theorem getD_map_mod (xs : List Int) (p : Int) (j : ℕ) (hj : j < xs.length) :
    (xs.map (fun x => x % p)).getD j 0 = xs.getD j 0 % p := by
  simp [List.getD_eq_getElem?_getD, List.getElem?_map, List.getElem?_eq_getElem, hj]

theorem finset_prod_range_eq_list {M : Type} [CommMonoid M] (n : ℕ) (f : ℕ → M) :
    ∏ j ∈ Finset.range n, f j = ((List.range n).map f).prod := by
  rw [Finset.prod_eq_multiset_prod]
  rfl

theorem list_prod_if_erase {M : Type} [CommMonoid M] (m i : ℕ) (f : ℕ → M) :
    ((List.range m).map (fun j => if j = i then 1 else f j)).prod =
      ∏ j ∈ (Finset.range m).erase i, f j := by
  rw [← finset_prod_range_eq_list]
  calc ∏ j ∈ Finset.range m, (if j = i then 1 else f j)
      = ∏ j ∈ (Finset.range m).erase i, (if j = i then 1 else f j) :=
        (Finset.prod_erase _ (by simp)).symm
    _ = ∏ j ∈ (Finset.range m).erase i, f j :=
        Finset.prod_congr rfl (fun j hj => by rw [if_neg (Finset.ne_of_mem_erase hj)])

theorem foldl_mod_mul_cast (p : ℕ) (i : ℕ) (g : ℕ → Int) :
    ∀ (l : List ℕ) (acc : Int),
      ((l.foldl (fun a j => if j = i then a else (a * g j) % (p : Int)) acc : Int) : ZMod p) =
        (acc : ZMod p) * (l.map (fun j => if j = i then 1 else ((g j : Int) : ZMod p))).prod := by
  intro l
  induction l with
  | nil => intro acc; simp
  | cons j l ih =>
    intro acc
    rw [List.foldl_cons, List.map_cons, List.prod_cons]
    by_cases hj : j = i
    · rw [if_pos hj, if_pos hj, ih, one_mul]
    · rw [if_neg hj, if_neg hj, ih, ZMod.intCast_mod]
      push_cast
      ring

theorem foldl_mod_mul_range_cast (p : ℕ) (m i : ℕ) (g : ℕ → Int) :
    (((List.range m).foldl (fun a j => if j = i then a else (a * g j) % (p : Int)) 1 : Int) : ZMod p) =
      ∏ j ∈ (Finset.range m).erase i, ((g j : Int) : ZMod p) := by
  rw [foldl_mod_mul_cast, list_prod_if_erase]
  simp

open Polynomial in
theorem interp_at_zero {p : ℕ} [Fact p.Prime] (m : ℕ) (v : ℕ → ZMod p)
    (hv : Set.InjOn v (Finset.range m))
    (f : Polynomial (ZMod p)) (hdeg : f.degree < m) :
    f.eval 0 = ∑ i ∈ Finset.range m,
      f.eval (v i) * ((∏ j ∈ (Finset.range m).erase i, (-(v j))) *
        (∏ j ∈ (Finset.range m).erase i, (v i - v j))⁻¹) := by
  have hcard : f.degree < (Finset.range m).card := by simpa using hdeg
  have hinterp := Lagrange.eq_interpolate (v := v) hv hcard
  calc f.eval 0
      = (Lagrange.interpolate (Finset.range m) v (fun i => f.eval (v i))).eval 0 := by
        rw [← hinterp]
    _ = _ := by
        rw [Lagrange.interpolate_apply, eval_finset_sum]
        refine Finset.sum_congr rfl (fun i hi => ?_)
        rw [eval_mul, eval_C, Lagrange.basis, eval_prod]
        rw [← Finset.prod_inv_distrib, ← Finset.prod_mul_distrib]
        congr 1
        refine Finset.prod_congr rfl (fun j hj => ?_)
        simp [Lagrange.basisDivisor, mul_comm, zero_sub]

theorem cast_poly_eval (p : ℕ) (cs : List Int) (x : Int) :
    ((poly_eval cs x : Int) : ZMod p) =
      ∑ j ∈ Finset.range cs.length, ((cs.getD j 0 : Int) : ZMod p) * ((x : Int) : ZMod p) ^ j := by
  induction cs with
  | nil => simp [poly_eval]
  | cons c rest ih =>
    show ((c + x * poly_eval rest x : Int) : ZMod p) = _
    push_cast
    rw [List.length_cons, Finset.sum_range_succ']
    simp only [List.getD_cons_succ, List.getD_cons_zero, pow_zero, mul_one, pow_succ]
    rw [ih, Finset.mul_sum, add_comm]
    congr 1
    refine Finset.sum_congr rfl (fun j hj => ?_)
    ring

open Polynomial in
theorem poly_interp_core {p : ℕ} [Fact p.Prime] (cs : List Int) (m : ℕ)
    (hlen : cs.length ≤ m) (w : ℕ → Int)
    (hinj : Set.InjOn (fun i => ((w i : Int) : ZMod p)) (Finset.range m)) :
    ((poly_eval cs 0 : Int) : ZMod p) = ∑ i ∈ Finset.range m,
      ((poly_eval cs (w i) : Int) : ZMod p) *
        ((∏ j ∈ (Finset.range m).erase i, (-((w j : Int) : ZMod p))) *
         (∏ j ∈ (Finset.range m).erase i,
            (((w i : Int) : ZMod p) - ((w j : Int) : ZMod p)))⁻¹) := by
  set f : Polynomial (ZMod p) :=
    ∑ j ∈ Finset.range cs.length, C ((cs.getD j 0 : Int) : ZMod p) * X ^ j with hf
  have hdeg : f.degree < (m : WithBot ℕ) := by
    refine lt_of_le_of_lt (degree_sum_le _ _) ?_
    rw [Finset.sup_lt_iff (by exact_mod_cast WithBot.bot_lt_coe m)]
    intro j hj
    refine lt_of_le_of_lt (degree_C_mul_X_pow_le _ _) ?_
    exact_mod_cast lt_of_lt_of_le (Finset.mem_range.mp hj) hlen
  have heval : ∀ x : Int, f.eval ((x : Int) : ZMod p) = ((poly_eval cs x : Int) : ZMod p) := by
    intro x
    rw [hf, eval_finset_sum, cast_poly_eval]
    refine Finset.sum_congr rfl (fun j hj => ?_)
    rw [eval_mul, eval_C, eval_pow, eval_X]
  have h0 : ((0 : Int) : ZMod p) = (0 : ZMod p) := by norm_num
  have hmain := interp_at_zero m (fun i => ((w i : Int) : ZMod p)) hinj f hdeg
  rw [← h0, heval 0] at hmain
  rw [hmain]
  refine Finset.sum_congr rfl (fun i hi => ?_)
  rw [heval (w i)]

theorem zmod_cast_eq_iff_emod (p : ℕ) (a b : Int) :
    ((a : ZMod p) = (b : ZMod p)) ↔ a % (p : Int) = b % (p : Int) := by
  rw [ZMod.intCast_eq_intCast_iff]
  exact Iff.rfl

theorem zmod_cast_zero_iff (p : ℕ) (a : Int) :
    ((a : ZMod p) = 0) ↔ a % (p : Int) = 0 := by
  rw [ZMod.intCast_zmod_eq_zero_iff_dvd]
  exact ⟨fun h => Int.emod_eq_zero_of_dvd h, fun h => Int.dvd_of_emod_eq_zero h⟩

theorem modinv_cast_inv (p : ℕ) (hp : p.Prime) (den : Int)
    (hden : (den : ZMod p) ≠ 0) :
    ∃ z : Int, modinv den (p : Int) = .ok z ∧ 0 ≤ z ∧ z < p ∧
      (z : ZMod p) = (den : ZMod p)⁻¹ := by
  haveI : Fact p.Prime := ⟨hp⟩
  have hmod : den % (p : Int) ≠ 0 := fun h => hden ((zmod_cast_zero_iff p den).mpr h)
  obtain ⟨z, hok, hz0, hz1, hinv⟩ := modinv_ok p hp den hmod
  refine ⟨z, hok, by omega, hz1, ?_⟩
  have hcast : ((den * z : Int) : ZMod p) = ((1 : Int) : ZMod p) := by
    have := congrArg (fun t : Int => (t : ZMod p)) hinv
    simpa [ZMod.intCast_mod] using this
  push_cast at hcast
  exact (inv_eq_of_mul_eq_one_right hcast).symm

theorem range_getD (n i : ℕ) (hi : i < n) : (List.range n).getD i 0 = i := by
  simp [List.getD_eq_getElem?_getD, List.getElem?_range, hi]

theorem lagrange_one_eq (xs1 : List Int) (p : Int) (i : ℕ) :
    lagrange_one xs1 p i =
      (modinv ((List.range xs1.length).foldl
          (fun acc j => if j = i then acc
            else (acc * (xs1.getD i 0 - xs1.getD j 0)) % p) 1) p).map
        (fun inv_den =>
          (((List.range xs1.length).foldl
            (fun acc j => if j = i then acc else (acc * (-(xs1.getD j 0))) % p) 1)
              * inv_den) % p) :=
  rfl

theorem den_fold_cast (p : ℕ) (xs : List Int) (i : ℕ) (hi : i < xs.length) :
    (((List.range (xs.map (fun x => x % (p : Int))).length).foldl
      (fun acc j => if j = i then acc
        else (acc * ((xs.map (fun x => x % (p : Int))).getD i 0 -
          (xs.map (fun x => x % (p : Int))).getD j 0)) % (p : Int)) 1 : Int) : ZMod p) =
    ∏ j ∈ (Finset.range xs.length).erase i,
      (((xs.getD i 0 : Int) : ZMod p) - ((xs.getD j 0 : Int) : ZMod p)) := by
  rw [List.length_map, foldl_mod_mul_range_cast]
  refine Finset.prod_congr rfl (fun j hj => ?_)
  have hj2 : j < xs.length := Finset.mem_range.mp (Finset.mem_of_mem_erase hj)
  push_cast
  rw [getD_map_mod xs _ j hj2, getD_map_mod xs _ i hi, ZMod.intCast_mod, ZMod.intCast_mod]

theorem num_fold_cast (p : ℕ) (xs : List Int) (i : ℕ) :
    (((List.range (xs.map (fun x => x % (p : Int))).length).foldl
      (fun acc j => if j = i then acc
        else (acc * (-((xs.map (fun x => x % (p : Int))).getD j 0))) % (p : Int)) 1 : Int) : ZMod p) =
    ∏ j ∈ (Finset.range xs.length).erase i, (-((xs.getD j 0 : Int) : ZMod p)) := by
  rw [List.length_map, foldl_mod_mul_range_cast]
  refine Finset.prod_congr rfl (fun j hj => ?_)
  have hj2 : j < xs.length := Finset.mem_range.mp (Finset.mem_of_mem_erase hj)
  push_cast
  rw [getD_map_mod xs _ j hj2, ZMod.intCast_mod]

theorem lagrange_one_ok (p : ℕ) (hp : p.Prime) (xs : List Int) (i : ℕ)
    (hi : i < xs.length)
    (hd : ∀ j, j < xs.length → j ≠ i →
      xs.getD i 0 % (p : Int) ≠ xs.getD j 0 % (p : Int)) :
    ∃ c : Int, lagrange_one (xs.map (fun x => x % (p : Int))) (p : Int) i = .ok c ∧
      0 ≤ c ∧ c < p ∧
      (c : ZMod p) =
        (∏ j ∈ (Finset.range xs.length).erase i, (-((xs.getD j 0 : Int) : ZMod p))) *
        (∏ j ∈ (Finset.range xs.length).erase i,
          (((xs.getD i 0 : Int) : ZMod p) - ((xs.getD j 0 : Int) : ZMod p)))⁻¹ := by
  haveI : Fact p.Prime := ⟨hp⟩
  have hppos : (0 : Int) < p := by exact_mod_cast hp.pos
  have hdenne :
      (((List.range (xs.map (fun x => x % (p : Int))).length).foldl
        (fun acc j => if j = i then acc
          else (acc * ((xs.map (fun x => x % (p : Int))).getD i 0 -
            (xs.map (fun x => x % (p : Int))).getD j 0)) % (p : Int)) 1 : Int) : ZMod p) ≠ 0 := by
    rw [den_fold_cast p xs i hi]
    rw [Finset.prod_ne_zero_iff]
    intro j hj h0
    have hj2 : j < xs.length := Finset.mem_range.mp (Finset.mem_of_mem_erase hj)
    have hjne : j ≠ i := Finset.ne_of_mem_erase hj
    have hcasteq : ((xs.getD i 0 : Int) : ZMod p) = ((xs.getD j 0 : Int) : ZMod p) :=
      sub_eq_zero.mp h0
    exact hd j hj2 hjne ((zmod_cast_eq_iff_emod p _ _).mp hcasteq)
  obtain ⟨z, hzok, hz0, hz1, hzinv⟩ := modinv_cast_inv p hp _ hdenne
  refine ⟨(((List.range (xs.map (fun x => x % (p : Int))).length).foldl
      (fun acc j => if j = i then acc
        else (acc * (-((xs.map (fun x => x % (p : Int))).getD j 0))) % (p : Int)) 1)
        * z) % (p : Int), ?_, (emod_nonneg_lt _ hppos).1, (emod_nonneg_lt _ hppos).2, ?_⟩
  · rw [lagrange_one_eq, hzok]
    rfl
  · rw [ZMod.intCast_mod]
    push_cast
    rw [num_fold_cast p xs i, hzinv, den_fold_cast p xs i hi]

theorem lagrange_one_error (p : ℕ) (xs : List Int) (i : ℕ)
    (hi : i < xs.length)
    (hdup : ∃ j, j < xs.length ∧ j ≠ i ∧
      xs.getD i 0 % (p : Int) = xs.getD j 0 % (p : Int)) :
    lagrange_one (xs.map (fun x => x % (p : Int))) (p : Int) i =
      .error (.zeroDivisionError "Inverse of 0 does not exist") := by
  obtain ⟨j, hj, hjne, heq⟩ := hdup
  have hdenzero :
      (((List.range (xs.map (fun x => x % (p : Int))).length).foldl
        (fun acc j => if j = i then acc
          else (acc * ((xs.map (fun x => x % (p : Int))).getD i 0 -
            (xs.map (fun x => x % (p : Int))).getD j 0)) % (p : Int)) 1 : Int) : ZMod p) = 0 := by
    rw [den_fold_cast p xs i hi]
    refine Finset.prod_eq_zero (Finset.mem_erase.mpr ⟨hjne, Finset.mem_range.mpr hj⟩) ?_
    rw [sub_eq_zero]
    exact (zmod_cast_eq_iff_emod p _ _).mpr heq
  have hmod := (zmod_cast_zero_iff p _).mp hdenzero
  rw [lagrange_one_eq]
  rw [modinv]
  simp only [hmod, if_pos]
  rfl

theorem lagrange_coeffs_ok (p : ℕ) (hp : p.Prime) (xs : List Int)
    (hdist : ∀ i j, i < xs.length → j < xs.length → i ≠ j →
      xs.getD i 0 % (p : Int) ≠ xs.getD j 0 % (p : Int)) :
    ∃ L : List Int, lagrange_coeffs_at_zero xs (p : Int) = .ok L ∧
      L.length = xs.length ∧
      ∀ i, i < xs.length → 0 ≤ L.getD i 0 ∧ L.getD i 0 < p ∧
        (L.getD i 0 : ZMod p) =
          (∏ j ∈ (Finset.range xs.length).erase i, (-((xs.getD j 0 : Int) : ZMod p))) *
          (∏ j ∈ (Finset.range xs.length).erase i,
            (((xs.getD i 0 : Int) : ZMod p) - ((xs.getD j 0 : Int) : ZMod p)))⁻¹ := by
  rw [lagrange_coeffs_at_zero]
  have hall : ∀ a ∈ List.range xs.length, ∃ b,
      lagrange_one (xs.map (fun x => x % (p : Int))) (p : Int) a = .ok b := by
    intro a ha
    have ha2 := List.mem_range.mp ha
    obtain ⟨c, hc, _⟩ := lagrange_one_ok p hp xs a ha2
      (fun j hj hja => hdist a j ha2 hj (Ne.symm hja))
    exact ⟨c, hc⟩
  obtain ⟨L, hL⟩ := (map_except_ok_iff _ _).mpr hall
  obtain ⟨hlen0, hget⟩ := map_except_ok_get _ _ _ hL
  refine ⟨L, hL, by simpa using hlen0, ?_⟩
  intro i hi2
  obtain ⟨c, hc, hc0, hc1, hcast⟩ := lagrange_one_ok p hp xs i hi2
    (fun j hj hji => hdist i j hi2 hj (Ne.symm hji))
  have hgi := hget i 0 0 (by simpa using hi2)
  rw [range_getD _ _ hi2, hc] at hgi
  have heq : c = L.getD i 0 := Except.ok.inj hgi
  rw [← heq]
  exact ⟨hc0, hc1, hcast⟩

theorem lagrange_coeffs_error_iff (p : ℕ) (hp : p.Prime) (xs : List Int) :
    (∃ e, lagrange_coeffs_at_zero xs (p : Int) = .error e) ↔
      ∃ i j, i < xs.length ∧ j < xs.length ∧ i ≠ j ∧
        xs.getD i 0 % (p : Int) = xs.getD j 0 % (p : Int) := by
  rw [lagrange_coeffs_at_zero]
  rw [map_except_error_iff]
  constructor
  · rintro ⟨a, ha, e, hae⟩
    by_contra hno
    push_neg at hno
    have ha2 := List.mem_range.mp ha
    obtain ⟨c, hc, _⟩ := lagrange_one_ok p hp xs a ha2
      (fun j hj hja => hno a j ha2 hj (Ne.symm hja))
    rw [hc] at hae
    cases hae
  · rintro ⟨i, j, hi, hj, hij, heq⟩
    exact ⟨i, List.mem_range.mpr hi, _,
      lagrange_one_error p xs i hi ⟨j, hj, Ne.symm hij, heq⟩⟩

/-- C2: for a prime `p` and x-coordinates pairwise distinct mod `p` and
nonzero mod `p`, `lagrange_coeffs_at_zero` returns one coefficient per input
x in order, with `coefficient[i] = (Π_{j≠i} (−x_j)) · (Π_{j≠i} (x_i − x_j))⁻¹`
in the field `ZMod p` (the inverse computed through `modinv`), each in
`[0, p)`; and for every polynomial of degree `< len xs` (coefficient list
`cs`), its value at `0` equals `Σ_i f(x_i) · coefficient[i]` mod `p` — no
threshold `k` appears anywhere. -/
theorem lagrange_coeffs_at_zero_correct (xs : List Int) (p : ℕ) (hp : p.Prime)
    (hdist : ∀ i j, i < xs.length → j < xs.length → i ≠ j →
      xs.getD i 0 % (p : Int) ≠ xs.getD j 0 % (p : Int))
    (_hnz : ∀ x ∈ xs, x % (p : Int) ≠ 0) :
    ∃ L : List Int, lagrange_coeffs_at_zero xs (p : Int) = .ok L ∧
      L.length = xs.length ∧
      (∀ i, i < xs.length → 0 ≤ L.getD i 0 ∧ L.getD i 0 < p ∧
        (L.getD i 0 : ZMod p) =
          (∏ j ∈ (Finset.range xs.length).erase i, (-((xs.getD j 0 : Int) : ZMod p))) *
          (∏ j ∈ (Finset.range xs.length).erase i,
            (((xs.getD i 0 : Int) : ZMod p) - ((xs.getD j 0 : Int) : ZMod p)))⁻¹) ∧
      (∀ cs : List Int, cs.length ≤ xs.length →
        ((poly_eval cs 0 : Int) : ZMod p) =
          ∑ i ∈ Finset.range xs.length,
            ((poly_eval cs (xs.getD i 0) : Int) : ZMod p) *
              ((L.getD i 0 : Int) : ZMod p)) := by
  haveI : Fact p.Prime := ⟨hp⟩
  obtain ⟨L, hok, hlen, hvals⟩ := lagrange_coeffs_ok p hp xs hdist
  refine ⟨L, hok, hlen, hvals, ?_⟩
  intro cs hcs
  have hinj : Set.InjOn (fun i => ((xs.getD i 0 : Int) : ZMod p))
      (Finset.range xs.length) := by
    intro i hi j hj heq
    by_contra hne
    exact hdist i j (by simpa using hi) (by simpa using hj) hne
      ((zmod_cast_eq_iff_emod p _ _).mp heq)
  have hcore := poly_interp_core (p := p) cs xs.length hcs
    (fun i => xs.getD i 0) hinj
  rw [hcore]
  refine Finset.sum_congr rfl (fun i hi => ?_)
  have hi2 := Finset.mem_range.mp hi
  rw [(hvals i hi2).2.2]

theorem modinv_correct_witness :
    Nat.Prime 7 ∧ (3 : Int) % ((7 : ℕ) : Int) ≠ 0 ∧
      (∃ x : Int, modinv 3 ((7 : ℕ) : Int) = .ok x ∧ 1 ≤ x ∧ x < (7 : ℕ) ∧
        ((3 : Int) * x) % ((7 : ℕ) : Int) = 1 ∧
        (∀ y : Int, 1 ≤ y → y < (7 : ℕ) → ((3 : Int) * y) % ((7 : ℕ) : Int) = 1 → y = x) ∧
        (0 ≤ (3 : Int) → (3 : Int) < (7 : ℕ) → modinv x ((7 : ℕ) : Int) = .ok 3)) :=
  ⟨by norm_num, by decide, modinv_correct 7 (by norm_num) 3 (by decide)⟩

theorem modinv_zero_raises_witness :
    (0 : Int) % 7 = 0 ∧
      (modinv 0 7 = .error (.zeroDivisionError "Inverse of 0 does not exist") ∧
        ∀ x : Int, modinv 0 7 ≠ .ok x) :=
  ⟨by decide, modinv_zero_raises 0 7 (by decide)⟩

theorem next_prime_correct_witness :
    2 ≤ 10 ∧ (is_prime (next_prime 10) = true ∧ 10 < next_prime 10 ∧
      (∀ m, 10 < m → m < next_prime 10 → ¬ m.Prime) ∧
      (∀ m, m < 2 → is_prime m = false) ∧
      (∀ m, is_prime m = true ↔ m.Prime)) :=
  ⟨by decide, next_prime_correct 10 (by decide)⟩

theorem lagrange_coeffs_witness :
    Nat.Prime 5 ∧
      (∃ L : List Int, lagrange_coeffs_at_zero [1, 2] ((5 : ℕ) : Int) = .ok L ∧
        L.length = ([1, 2] : List Int).length ∧
        (∀ i, i < ([1, 2] : List Int).length →
          0 ≤ L.getD i 0 ∧ L.getD i 0 < (5 : ℕ) ∧
          (L.getD i 0 : ZMod 5) =
            (∏ j ∈ (Finset.range ([1, 2] : List Int).length).erase i,
              (-((([1, 2] : List Int).getD j 0 : Int) : ZMod 5))) *
            (∏ j ∈ (Finset.range ([1, 2] : List Int).length).erase i,
              (((([1, 2] : List Int).getD i 0 : Int) : ZMod 5) -
                ((([1, 2] : List Int).getD j 0 : Int) : ZMod 5)))⁻¹) ∧
        (∀ cs : List Int, cs.length ≤ ([1, 2] : List Int).length →
          ((poly_eval cs 0 : Int) : ZMod 5) =
            ∑ i ∈ Finset.range ([1, 2] : List Int).length,
              ((poly_eval cs (([1, 2] : List Int).getD i 0) : Int) : ZMod 5) *
                ((L.getD i 0 : Int) : ZMod 5))) :=
  ⟨by norm_num, lagrange_coeffs_at_zero_correct [1, 2] 5 (by norm_num)
    (by intro i j hi hj hij
        simp only [List.length_cons, List.length_nil] at hi hj
        interval_cases i <;> interval_cases j <;> revert hij <;> decide)
    (by intro x hx
        fin_cases hx <;> decide)⟩

theorem share_fold_spec (p : ℕ) (hp2 : 2 ≤ p) (hpB : (p : Int) * p ≤ 2 ^ 63) (x : Int) :
    ∀ (cs : List Int) (y xp : Int), 0 ≤ y → y < p → 0 ≤ xp → xp < p →
      (∀ c ∈ cs, 0 ≤ c ∧ c < p) →
      0 ≤ (cs.foldl (share_step x (p : Int)) (y, xp)).1 ∧
        (cs.foldl (share_step x (p : Int)) (y, xp)).1 < p ∧
        (((cs.foldl (share_step x (p : Int)) (y, xp)).1 : Int) : ZMod p) =
          (y : ZMod p) + (xp : ZMod p) * ((poly_eval cs x : Int) : ZMod p) := by
  intro cs
  induction cs with
  | nil =>
    intro y xp hy0 hy1 _ _ _
    refine ⟨hy0, hy1, ?_⟩
    simp [poly_eval]
  | cons c cs ih =>
    intro y xp hy0 hy1 hxp0 hxp1 hall
    have hppos : (0 : Int) < p := by exact_mod_cast Nat.lt_of_lt_of_le Nat.zero_lt_two hp2
    obtain ⟨hc0, hc1⟩ := hall c (List.mem_cons_self c cs)
    have hcxp0 : 0 ≤ c * xp := mul_nonneg hc0 hxp0
    have hcxp1 : c * xp < (p : Int) * p := by nlinarith
    have hw1 : wrap64 (c * xp) = c * xp :=
      wrap64_eq_self (by omega) (by omega)
    have hsum1 : y + c * xp < (p : Int) * p := by nlinarith
    have hw2 : wrap64 (y + c * xp) = y + c * xp :=
      wrap64_eq_self (by omega) (by omega)
    have hstep : share_step x (p : Int) (y, xp) c =
        ((y + c * xp) % (p : Int), (xp * x) % (p : Int)) := by
      rw [share_step]
      rw [hw1]
      rw [hw2]
    rw [List.foldl_cons, hstep]
    obtain ⟨hy0', hy1'⟩ := emod_nonneg_lt (y + c * xp) hppos
    obtain ⟨hxp0', hxp1'⟩ := emod_nonneg_lt (xp * x) hppos
    obtain ⟨hr0, hr1, hrcast⟩ := ih ((y + c * xp) % (p : Int)) ((xp * x) % (p : Int))
      hy0' hy1' hxp0' hxp1' (fun c2 hc2 => hall c2 (List.mem_cons_of_mem c hc2))
    refine ⟨hr0, hr1, ?_⟩
    rw [hrcast]
    have hpe : poly_eval (c :: cs) x = c + x * poly_eval cs x := rfl
    rw [hpe, ZMod.intCast_mod, ZMod.intCast_mod]
    push_cast
    ring

theorem eval_share_spec (p : ℕ) (hp2 : 2 ≤ p) (hpB : (p : Int) * p ≤ 2 ^ 63)
    (x : Int) (cs : List Int) (hcs : ∀ c ∈ cs, 0 ≤ c ∧ c < p) :
    0 ≤ eval_share cs x (p : Int) ∧ eval_share cs x (p : Int) < p ∧
      eval_share cs x (p : Int) = poly_eval cs x % (p : Int) := by
  have hppos : (0 : Int) < p := by exact_mod_cast Nat.lt_of_lt_of_le Nat.zero_lt_two hp2
  obtain ⟨h0, h1, hcast⟩ := share_fold_spec p hp2 hpB x cs 0 1 (le_refl 0)
    (by exact_mod_cast hppos) (by omega) (by exact_mod_cast hp2) hcs
  refine ⟨h0, h1, ?_⟩
  obtain ⟨hm0, hm1⟩ := emod_nonneg_lt (poly_eval cs x) hppos
  refine int_eq_of_zmod_eq h0 h1 hm0 hm1 ?_
  show ((eval_share cs x (p : Int) : Int) : ZMod p) = _
  rw [eval_share, hcast, ZMod.intCast_mod]
  push_cast
  ring

theorem list_max_mem (l : List Int) (hne : l ≠ []) : list_max l ∈ l := by
  have key : ∀ (t : List Int) (acc : Int), t.foldl max acc = acc ∨ t.foldl max acc ∈ t := by
    intro t
    induction t with
    | nil => intro acc; exact Or.inl rfl
    | cons x t ih =>
      intro acc
      rw [List.foldl_cons]
      rcases ih (max acc x) with heq | hmem
      · rcases max_choice acc x with hm | hm
        · exact Or.inl (by rw [heq, hm])
        · exact Or.inr (by rw [heq, hm]; exact List.mem_cons_self x t)
      · exact Or.inr (List.mem_cons_of_mem x hmem)
  rw [list_max]
  rcases key l (l.headD 0) with heq | hmem
  · rw [heq]
    match l, hne with
    | x :: t, _ => exact List.mem_cons_self x t
  · exact hmem

theorem split_ok (secret : List Int) (n k : ℕ) (p : Int) (rand : ℕ → ℕ → Int)
    (hk : 2 ≤ k) (hkn : k ≤ n) (hne : secret ≠ [])
    (hmax : list_max secret < p) :
    split_image_into_shares secret n k p rand =
      .ok ((List.range n).map (fun i =>
        (i + 1, (List.range secret.length).map (fun pos =>
          wrap32 (eval_share (coeffs_at secret rand k pos) ((i : Int) + 1) p))))) := by
  rw [split_image_into_shares]
  rw [if_neg (not_not_intro ⟨hk, hkn⟩)]
  rw [if_neg (by simp [List.isEmpty_iff, hne])]
  rw [if_neg (by omega)]

/-- C4: `split_image_into_shares` raises a `ValueError` (and produces no
share mapping) whenever the threshold constraint `2 ≤ k ≤ n` is violated or
some element of the secret array is `≥ prime`; out-of-field values are never
wrapped into shares. -/
theorem split_precondition_errors (secret : List Int) (n k : ℕ) (p : Int)
    (rand : ℕ → ℕ → Int)
    (h : ¬(2 ≤ k ∧ k ≤ n) ∨ ∃ v ∈ secret, p ≤ v) :
    (∃ msg, split_image_into_shares secret n k p rand = .error (.valueError msg)) ∧
      ∀ shares, split_image_into_shares secret n k p rand ≠ .ok shares := by
  have herr : ∃ msg, split_image_into_shares secret n k p rand = .error (.valueError msg) := by
    by_cases hk2 : ¬(2 ≤ k ∧ k ≤ n)
    · exact ⟨_, by rw [split_image_into_shares, if_pos hk2]⟩
    · rcases h with hk3 | ⟨v, hv, hvp⟩
      · exact absurd hk3 (not_not_intro (not_not.mp hk2))
      · have hne : secret ≠ [] := by
          intro h0
          rw [h0] at hv
          cases hv
        have hmax : p ≤ list_max secret := le_trans hvp (list_max_is_ub secret v hv)
        refine ⟨"Image max value must be less than prime", ?_⟩
        rw [split_image_into_shares, if_neg hk2]
        rw [if_neg (by simp [List.isEmpty_iff, hne])]
        rw [if_pos (by omega)]

  obtain ⟨msg, hmsg⟩ := herr
  refine ⟨⟨msg, hmsg⟩, ?_⟩
  intro shares hok
  rw [hmsg] at hok
  cases hok

theorem split_precondition_errors_witness :
    (¬(2 ≤ 2 ∧ 2 ≤ 3) ∨ ∃ v ∈ ([9] : List Int), (7 : Int) ≤ v) ∧
      ((∃ msg, split_image_into_shares [9] 3 2 7 (fun _ _ => 0) =
          .error (.valueError msg)) ∧
        ∀ shares, split_image_into_shares [9] 3 2 7 (fun _ _ => 0) ≠ .ok shares) :=
  ⟨Or.inr ⟨9, by simp, by norm_num⟩,
    split_precondition_errors [9] 3 2 7 (fun _ _ => 0)
      (Or.inr ⟨9, by simp, by norm_num⟩)⟩

theorem getD_map_range {β : Type} (f : ℕ → β) (d : β) (n i : ℕ) (hi : i < n) :
    ((List.range n).map f).getD i d = f i := by
  simp [List.getD_eq_getElem?_getD, List.getElem?_map, List.getElem?_range, hi]

theorem coeffs_at_bounds (secret : List Int) (rand : ℕ → ℕ → Int) (k pos : ℕ)
    (p : ℕ) (hsec : ∀ v ∈ secret, 0 ≤ v ∧ v < p)
    (hrand : ∀ j pos2, 0 ≤ rand j pos2 ∧ rand j pos2 < p)
    (hpos : pos < secret.length) :
    ∀ c ∈ coeffs_at secret rand k pos, 0 ≤ c ∧ c < p := by
  intro c hc
  rw [coeffs_at] at hc
  rcases List.mem_cons.mp hc with rfl | hmem
  · have : secret.getD pos 0 = secret[pos] := List.getD_eq_getElem secret 0 hpos
    rw [this]
    exact hsec _ (List.getElem_mem hpos)
  · obtain ⟨j, hj, rfl⟩ := List.mem_map.mp hmem
    exact hrand _ _

theorem p_lt_two_pow_32 (p : ℕ) (hpB : (p : Int) * p ≤ 2 ^ 63) : (p : Int) < 2 ^ 32 := by
  by_contra hge
  push_neg at hge
  nlinarith

/-- C8 (amended): under the Splitter preconditions, and with the prime small
enough that two field elements multiply without `int64` overflow
(`p * p ≤ 2^63`, hence `p < 2^32` so the `uint32` store is lossless),
`split_image_into_shares` returns an association list whose keys are exactly
`1..n` (pairwise distinct and nonzero), every share array having one entry
per secret position, each entry in `[0, p)` and equal to that position's
polynomial evaluated at the share's x, mod `p`. -/
theorem split_shareset_invariant (secret : List Int) (n k : ℕ) (p : ℕ)
    (rand : ℕ → ℕ → Int) (hp2 : 2 ≤ p) (hpB : (p : Int) * p ≤ 2 ^ 63)
    (hk : 2 ≤ k) (hkn : k ≤ n) (hne : secret ≠ [])
    (hsec : ∀ v ∈ secret, 0 ≤ v ∧ v < p)
    (hrand : ∀ j pos, 0 ≤ rand j pos ∧ rand j pos < p) :
    ∃ shares : List (ℕ × List Int),
      split_image_into_shares secret n k (p : Int) rand = .ok shares ∧
      shares.map Prod.fst = (List.range n).map (fun i => i + 1) ∧
      (shares.map Prod.fst).Nodup ∧
      (∀ key ∈ shares.map Prod.fst, key ≠ 0) ∧
      ∀ pr ∈ shares, pr.2.length = secret.length ∧
        ∀ pos, pos < secret.length →
          0 ≤ pr.2.getD pos 0 ∧ pr.2.getD pos 0 < p ∧
          pr.2.getD pos 0 =
            poly_eval (coeffs_at secret rand k pos) ((pr.1 : ℕ) : Int) % (p : Int) := by
  have hppos : (0 : Int) < p := by exact_mod_cast Nat.lt_of_lt_of_le Nat.zero_lt_two hp2
  have hmax : list_max secret < (p : Int) := (hsec _ (list_max_mem secret hne)).2
  refine ⟨_, split_ok secret n k (p : Int) rand hk hkn hne hmax, ?_, ?_, ?_, ?_⟩
  · rw [List.map_map]
    rfl
  · rw [List.map_map]
    show (List.map (fun i => i + 1) (List.range n)).Nodup
    exact List.Nodup.map (fun a b => by omega) (List.nodup_range n)
  · rw [List.map_map]
    intro key hkey
    obtain ⟨i, hi, rfl⟩ := List.mem_map.mp hkey
    simp
  · intro pr hpr
    obtain ⟨i, hi, rfl⟩ := List.mem_map.mp hpr
    constructor
    · simp
    · intro pos hpos
      rw [getD_map_range _ _ _ _ hpos]
      have hcb := coeffs_at_bounds secret rand k pos p hsec hrand hpos
      obtain ⟨he0, he1, heq⟩ :=
        eval_share_spec p hp2 hpB ((i : Int) + 1) (coeffs_at secret rand k pos) hcb
      have hw : wrap32 (eval_share (coeffs_at secret rand k pos) ((i : Int) + 1) (p : Int)) =
          eval_share (coeffs_at secret rand k pos) ((i : Int) + 1) (p : Int) :=
        wrap32_eq_self he0 (lt_trans he1 (p_lt_two_pow_32 p hpB))
      rw [hw]
      refine ⟨he0, he1, ?_⟩
      rw [heq]
      simp

theorem split_shareset_witness :
    2 ≤ 257 ∧ ((257 : ℕ) : Int) * 257 ≤ 2 ^ 63 ∧
      (∃ shares : List (ℕ × List Int),
        split_image_into_shares [5] 3 2 ((257 : ℕ) : Int) (fun _ _ => 7) = .ok shares ∧
        shares.map Prod.fst = (List.range 3).map (fun i => i + 1) ∧
        (shares.map Prod.fst).Nodup ∧
        (∀ key ∈ shares.map Prod.fst, key ≠ 0) ∧
        ∀ pr ∈ shares, pr.2.length = ([5] : List Int).length ∧
          ∀ pos, pos < ([5] : List Int).length →
            0 ≤ pr.2.getD pos 0 ∧ pr.2.getD pos 0 < (257 : ℕ) ∧
            pr.2.getD pos 0 =
              poly_eval (coeffs_at [5] (fun _ _ => 7) 2 pos) ((pr.1 : ℕ) : Int) %
                ((257 : ℕ) : Int)) :=
  ⟨by norm_num, by norm_num,
    split_shareset_invariant [5] 3 2 257 (fun _ _ => 7) (by norm_num) (by norm_num)
      (by norm_num) (by norm_num) (by simp)
      (by intro v hv; fin_cases hv <;> norm_num)
      (fun j pos => by norm_num)⟩

/-- 4294967311 (the least prime above `2^32`) is prime, by the Lucas
primality certificate: 3 has order `p - 1 = 2 * 3^2 * 5 * 131 * 364289`
modulo `p`, checked through a square-and-multiply chain in `ZMod p`. -/
theorem prime_4294967311 : Nat.Prime 4294967311 := by
  have t0 : (3 : ZMod 4294967311) ^ ((2 : ℕ) ^ 0) = 3 := by decide
  have t1 : (3 : ZMod 4294967311) ^ ((2 : ℕ) ^ 1) = 9 := by
    have h : ((2 : ℕ) ^ 1) = 2 ^ 0 * 2 := by norm_num
    rw [h, pow_mul, t0]
    decide
  have t2 : (3 : ZMod 4294967311) ^ ((2 : ℕ) ^ 2) = 81 := by
    have h : ((2 : ℕ) ^ 2) = 2 ^ 1 * 2 := by norm_num
    rw [h, pow_mul, t1]
    decide
  have t3 : (3 : ZMod 4294967311) ^ ((2 : ℕ) ^ 3) = 6561 := by
    have h : ((2 : ℕ) ^ 3) = 2 ^ 2 * 2 := by norm_num
    rw [h, pow_mul, t2]
    decide
  have t4 : (3 : ZMod 4294967311) ^ ((2 : ℕ) ^ 4) = 43046721 := by
    have h : ((2 : ℕ) ^ 4) = 2 ^ 3 * 2 := by norm_num
    rw [h, pow_mul, t3]
    decide
  have t5 : (3 : ZMod 4294967311) ^ ((2 : ℕ) ^ 5) = 3787161312 := by
    have h : ((2 : ℕ) ^ 5) = 2 ^ 4 * 2 := by norm_num
    rw [h, pow_mul, t4]
    decide
  have t6 : (3 : ZMod 4294967311) ^ ((2 : ℕ) ^ 6) = 2960817548 := by
    have h : ((2 : ℕ) ^ 6) = 2 ^ 5 * 2 := by norm_num
    rw [h, pow_mul, t5]
    decide
  have t7 : (3 : ZMod 4294967311) ^ ((2 : ℕ) ^ 7) = 1176516725 := by
    have h : ((2 : ℕ) ^ 7) = 2 ^ 6 * 2 := by norm_num
    rw [h, pow_mul, t6]
    decide
  have t8 : (3 : ZMod 4294967311) ^ ((2 : ℕ) ^ 8) = 93247894 := by
    have h : ((2 : ℕ) ^ 8) = 2 ^ 7 * 2 := by norm_num
    rw [h, pow_mul, t7]
    decide
  have t9 : (3 : ZMod 4294967311) ^ ((2 : ℕ) ^ 9) = 4119348425 := by
    have h : ((2 : ℕ) ^ 9) = 2 ^ 8 * 2 := by norm_num
    rw [h, pow_mul, t8]
    decide
  have t10 : (3 : ZMod 4294967311) ^ ((2 : ℕ) ^ 10) = 363315125 := by
    have h : ((2 : ℕ) ^ 10) = 2 ^ 9 * 2 := by norm_num
    rw [h, pow_mul, t9]
    decide
  have t11 : (3 : ZMod 4294967311) ^ ((2 : ℕ) ^ 11) = 1144738664 := by
    have h : ((2 : ℕ) ^ 11) = 2 ^ 10 * 2 := by norm_num
    rw [h, pow_mul, t10]
    decide
  have t12 : (3 : ZMod 4294967311) ^ ((2 : ℕ) ^ 12) = 3159559037 := by
    have h : ((2 : ℕ) ^ 12) = 2 ^ 11 * 2 := by norm_num
    rw [h, pow_mul, t11]
    decide
  have t13 : (3 : ZMod 4294967311) ^ ((2 : ℕ) ^ 13) = 3984249440 := by
    have h : ((2 : ℕ) ^ 13) = 2 ^ 12 * 2 := by norm_num
    rw [h, pow_mul, t12]
    decide
  have t14 : (3 : ZMod 4294967311) ^ ((2 : ℕ) ^ 14) = 132383238 := by
    have h : ((2 : ℕ) ^ 14) = 2 ^ 13 * 2 := by norm_num
    rw [h, pow_mul, t13]
    decide
  have t15 : (3 : ZMod 4294967311) ^ ((2 : ℕ) ^ 15) = 3943573603 := by
    have h : ((2 : ℕ) ^ 15) = 2 ^ 14 * 2 := by norm_num
    rw [h, pow_mul, t14]
    decide
  have t16 : (3 : ZMod 4294967311) ^ ((2 : ℕ) ^ 16) = 2379622170 := by
    have h : ((2 : ℕ) ^ 16) = 2 ^ 15 * 2 := by norm_num
    rw [h, pow_mul, t15]
    decide
  have t17 : (3 : ZMod 4294967311) ^ ((2 : ℕ) ^ 17) = 1856824743 := by
    have h : ((2 : ℕ) ^ 17) = 2 ^ 16 * 2 := by norm_num
    rw [h, pow_mul, t16]
    decide
  have t18 : (3 : ZMod 4294967311) ^ ((2 : ℕ) ^ 18) = 481598255 := by
    have h : ((2 : ℕ) ^ 18) = 2 ^ 17 * 2 := by norm_num
    rw [h, pow_mul, t17]
    decide
  have t19 : (3 : ZMod 4294967311) ^ ((2 : ℕ) ^ 19) = 2950815293 := by
    have h : ((2 : ℕ) ^ 19) = 2 ^ 18 * 2 := by norm_num
    rw [h, pow_mul, t18]
    decide
  have t20 : (3 : ZMod 4294967311) ^ ((2 : ℕ) ^ 20) = 3113557537 := by
    have h : ((2 : ℕ) ^ 20) = 2 ^ 19 * 2 := by norm_num
    rw [h, pow_mul, t19]
    decide
  have t21 : (3 : ZMod 4294967311) ^ ((2 : ℕ) ^ 21) = 3857766064 := by
    have h : ((2 : ℕ) ^ 21) = 2 ^ 20 * 2 := by norm_num
    rw [h, pow_mul, t20]
    decide
  have t22 : (3 : ZMod 4294967311) ^ ((2 : ℕ) ^ 22) = 67588542 := by
    have h : ((2 : ℕ) ^ 22) = 2 ^ 21 * 2 := by norm_num
    rw [h, pow_mul, t21]
    decide
  have t23 : (3 : ZMod 4294967311) ^ ((2 : ℕ) ^ 23) = 2173327255 := by
    have h : ((2 : ℕ) ^ 23) = 2 ^ 22 * 2 := by norm_num
    rw [h, pow_mul, t22]
    decide
  have t24 : (3 : ZMod 4294967311) ^ ((2 : ℕ) ^ 24) = 3817161173 := by
    have h : ((2 : ℕ) ^ 24) = 2 ^ 23 * 2 := by norm_num
    rw [h, pow_mul, t23]
    decide
  have t25 : (3 : ZMod 4294967311) ^ ((2 : ℕ) ^ 25) = 1562112570 := by
    have h : ((2 : ℕ) ^ 25) = 2 ^ 24 * 2 := by norm_num
    rw [h, pow_mul, t24]
    decide
  have t26 : (3 : ZMod 4294967311) ^ ((2 : ℕ) ^ 26) = 628487581 := by
    have h : ((2 : ℕ) ^ 26) = 2 ^ 25 * 2 := by norm_num
    rw [h, pow_mul, t25]
    decide
  have t27 : (3 : ZMod 4294967311) ^ ((2 : ℕ) ^ 27) = 2095987730 := by
    have h : ((2 : ℕ) ^ 27) = 2 ^ 26 * 2 := by norm_num
    rw [h, pow_mul, t26]
    decide
  have t28 : (3 : ZMod 4294967311) ^ ((2 : ℕ) ^ 28) = 2634914581 := by
    have h : ((2 : ℕ) ^ 28) = 2 ^ 27 * 2 := by norm_num
    rw [h, pow_mul, t27]
    decide
  have t29 : (3 : ZMod 4294967311) ^ ((2 : ℕ) ^ 29) = 986911220 := by
    have h : ((2 : ℕ) ^ 29) = 2 ^ 28 * 2 := by norm_num
    rw [h, pow_mul, t28]
    decide
  have t30 : (3 : ZMod 4294967311) ^ ((2 : ℕ) ^ 30) = 1589215288 := by
    have h : ((2 : ℕ) ^ 30) = 2 ^ 29 * 2 := by norm_num
    rw [h, pow_mul, t29]
    decide
  have t31 : (3 : ZMod 4294967311) ^ ((2 : ℕ) ^ 31) = 2741552065 := by
    have h : ((2 : ℕ) ^ 31) = 2 ^ 30 * 2 := by norm_num
    rw [h, pow_mul, t30]
    decide
  have t32 : (3 : ZMod 4294967311) ^ ((2 : ℕ) ^ 32) = 1273293202 := by
    have h : ((2 : ℕ) ^ 32) = 2 ^ 31 * 2 := by norm_num
    rw [h, pow_mul, t31]
    decide
  have epow2 : (3 : ZMod 4294967311) ^ (2147483655 : ℕ) = 4294967310 := by
    have h : (2147483655 : ℕ) = 2 ^ 0 + 2 ^ 1 + 2 ^ 2 + 2 ^ 31 := by norm_num
    rw [h]
    simp only [pow_add]
    rw [t0, t1, t2, t31]
    decide
  have epow3 : (3 : ZMod 4294967311) ^ (1431655770 : ℕ) = 2086193154 := by
    have h : (1431655770 : ℕ) = 2 ^ 1 + 2 ^ 3 + 2 ^ 4 + 2 ^ 6 + 2 ^ 8 + 2 ^ 10 + 2 ^ 12 + 2 ^ 14 + 2 ^ 16 + 2 ^ 18 + 2 ^ 20 + 2 ^ 22 + 2 ^ 24 + 2 ^ 26 + 2 ^ 28 + 2 ^ 30 := by norm_num
    rw [h]
    simp only [pow_add]
    rw [t1, t3, t4, t6, t8, t10, t12, t14, t16, t18, t20, t22, t24, t26, t28, t30]
    decide
  have epow5 : (3 : ZMod 4294967311) ^ (858993462 : ℕ) = 239247313 := by
    have h : (858993462 : ℕ) = 2 ^ 1 + 2 ^ 2 + 2 ^ 4 + 2 ^ 5 + 2 ^ 8 + 2 ^ 9 + 2 ^ 12 + 2 ^ 13 + 2 ^ 16 + 2 ^ 17 + 2 ^ 20 + 2 ^ 21 + 2 ^ 24 + 2 ^ 25 + 2 ^ 28 + 2 ^ 29 := by norm_num
    rw [h]
    simp only [pow_add]
    rw [t1, t2, t4, t5, t8, t9, t12, t13, t16, t17, t20, t21, t24, t25, t28, t29]
    decide
  have epow131 : (3 : ZMod 4294967311) ^ (32786010 : ℕ) = 1859000016 := by
    have h : (32786010 : ℕ) = 2 ^ 1 + 2 ^ 3 + 2 ^ 4 + 2 ^ 6 + 2 ^ 9 + 2 ^ 10 + 2 ^ 14 + 2 ^ 18 + 2 ^ 20 + 2 ^ 21 + 2 ^ 22 + 2 ^ 23 + 2 ^ 24 := by norm_num
    rw [h]
    simp only [pow_add]
    rw [t1, t3, t4, t6, t9, t10, t14, t18, t20, t21, t22, t23, t24]
    decide
  have epow364289 : (3 : ZMod 4294967311) ^ (11790 : ℕ) = 1338913740 := by
    have h : (11790 : ℕ) = 2 ^ 1 + 2 ^ 2 + 2 ^ 3 + 2 ^ 9 + 2 ^ 10 + 2 ^ 11 + 2 ^ 13 := by norm_num
    rw [h]
    simp only [pow_add]
    rw [t1, t2, t3, t9, t10, t11, t13]
    decide
  have epowall : (3 : ZMod 4294967311) ^ (4294967310 : ℕ) = 1 := by
    have h : (4294967310 : ℕ) = 2 ^ 1 + 2 ^ 2 + 2 ^ 3 + 2 ^ 32 := by norm_num
    rw [h]
    simp only [pow_add]
    rw [t1, t2, t3, t32]
    decide
  have ha : (3 : ZMod 4294967311) ^ (4294967311 - 1) = 1 := by
    have h : (4294967311 - 1 : ℕ) = 4294967310 := by norm_num
    rw [h, epowall]
  refine lucas_primality 4294967311 3 ha ?_
  intro q hq hdvd
  have hfact : (4294967311 - 1 : ℕ) = 2 * (3 ^ 2 * (5 * (131 * 364289))) := by norm_num
  rw [hfact] at hdvd
  rcases (Nat.Prime.dvd_mul hq).mp hdvd with hd | hdvd2
  · have hq2 : q = 2 := (Nat.prime_dvd_prime_iff_eq hq Nat.prime_two).mp hd
    subst hq2
    have hdiv : (4294967311 - 1) / 2 = 2147483655 := by norm_num
    rw [hdiv, epow2]
    decide
  · rcases (Nat.Prime.dvd_mul hq).mp hdvd2 with hd | hdvd3
    · have hd3 : q ∣ 3 := hq.dvd_of_dvd_pow hd
      have hq3 : q = 3 := (Nat.prime_dvd_prime_iff_eq hq Nat.prime_three).mp hd3
      subst hq3
      have hdiv : (4294967311 - 1) / 3 = 1431655770 := by norm_num
      rw [hdiv, epow3]
      decide
    · rcases (Nat.Prime.dvd_mul hq).mp hdvd3 with hd | hdvd4
      · have hq5 : q = 5 := (Nat.prime_dvd_prime_iff_eq hq (by norm_num)).mp hd
        subst hq5
        have hdiv : (4294967311 - 1) / 5 = 858993462 := by norm_num
        rw [hdiv, epow5]
        decide
      · rcases (Nat.Prime.dvd_mul hq).mp hdvd4 with hd | hd
        · have hq131 : q = 131 := (Nat.prime_dvd_prime_iff_eq hq (by norm_num)).mp hd
          subst hq131
          have hdiv : (4294967311 - 1) / 131 = 32786010 := by norm_num
          rw [hdiv, epow131]
          decide
        · have hqb : q = 364289 := (Nat.prime_dvd_prime_iff_eq hq (by norm_num)).mp hd
          subst hqb
          have hdiv : (4294967311 - 1) / 364289 = 11790 := by norm_num
          rw [hdiv, epow364289]
          decide


theorem c8_counter_split_eval :
    split_image_into_shares [0] 2 2 4294967311 (fun _ _ => 4294967296) =
      .ok [(1, [0]), (2, [4294967281])] := by rfl

theorem c8_counter_poly_eval :
    poly_eval (coeffs_at [0] (fun _ _ => 4294967296) 2 0) 1 % 4294967311 =
      4294967296 := by rfl

/-- C8, counterexample to the claim as stated over every prime: with the
prime 4294967311 (the least prime above `2^32`) and random coefficient
`2^32` (a legal draw from `[0, prime)`), the share at `x = 1` stores `0`
through the `astype(np.uint32)` truncation, while the per-position
polynomial evaluated at `x = 1` mod the prime is `2^32 ≠ 0`. All Splitter
preconditions hold at this input. -/
theorem split_shareset_counterexample :
    Nat.Prime 4294967311 ∧ (2 ≤ 2 ∧ 2 ≤ 2) ∧
      (∀ v ∈ ([0] : List Int), 0 ≤ v ∧ v < 4294967311) ∧
      ((0 : Int) ≤ 4294967296 ∧ (4294967296 : Int) < 4294967311) ∧
      split_image_into_shares [0] 2 2 4294967311 (fun _ _ => 4294967296) =
        .ok [(1, [0]), (2, [4294967281])] ∧
      poly_eval (coeffs_at [0] (fun _ _ => 4294967296) 2 0) 1 % 4294967311 =
        4294967296 ∧
      (0 : Int) ≠ 4294967296 := by
  refine ⟨prime_4294967311, by norm_num, ?_, by norm_num,
    c8_counter_split_eval, c8_counter_poly_eval, by norm_num⟩
  intro v hv
  fin_cases hv <;> norm_num

theorem except_bind_ok {α β : Type} (a : α) (f : α → Except PyError β) :
    Except.bind (.ok a) f = f a := rfl

theorem except_bind_error {α β : Type} (e : PyError) (f : α → Except PyError β) :
    Except.bind (Except.error e) f = .error e := rfl

theorem recon_term_spec (p : ℕ) (hp2 : 2 ≤ p) (hpB : (p : Int) * p ≤ 2 ^ 63)
    (li y : Int) (hli0 : 0 ≤ li) (hli1 : li < p) :
    0 ≤ recon_term (p : Int) li y ∧ recon_term (p : Int) li y < p ∧
      ((recon_term (p : Int) li y : Int) : ZMod p) = (y : ZMod p) * (li : ZMod p) := by
  have hppos : (0 : Int) < p := by exact_mod_cast Nat.lt_of_lt_of_le Nat.zero_lt_two hp2
  obtain ⟨hy0, hy1⟩ := emod_nonneg_lt y hppos
  have hprod0 : 0 ≤ (y % (p : Int)) * li := mul_nonneg hy0 hli0
  have hprod1 : (y % (p : Int)) * li < (p : Int) * p := by nlinarith
  have hw : wrap64 ((y % (p : Int)) * li) = (y % (p : Int)) * li :=
    wrap64_eq_self (by omega) (by omega)
  rw [recon_term, hw]
  refine ⟨(emod_nonneg_lt _ hppos).1, (emod_nonneg_lt _ hppos).2, ?_⟩
  rw [ZMod.intCast_mod]
  push_cast
  ring

theorem recon_foldl_spec (p : ℕ) (hp2 : 2 ≤ p) (hpB : (p : Int) * p ≤ 2 ^ 63)
    (pos : ℕ) :
    ∀ (rest : List (Int × List Int)) (acc : Int), 0 ≤ acc → acc < p →
      (∀ z ∈ rest, 0 ≤ z.1 ∧ z.1 < p) →
      0 ≤ rest.foldl
          (fun acc z1 => (wrap64 (acc + recon_term (p : Int) z1.1 (z1.2.getD pos 0))) % (p : Int))
          acc ∧
        rest.foldl
          (fun acc z1 => (wrap64 (acc + recon_term (p : Int) z1.1 (z1.2.getD pos 0))) % (p : Int))
          acc < p ∧
        ((rest.foldl
            (fun acc z1 => (wrap64 (acc + recon_term (p : Int) z1.1 (z1.2.getD pos 0))) % (p : Int))
            acc : Int) : ZMod p) =
          (acc : ZMod p) +
            (rest.map (fun z =>
              ((z.2.getD pos 0 : Int) : ZMod p) * ((z.1 : Int) : ZMod p))).sum := by
  intro rest
  induction rest with
  | nil =>
    intro acc h0 h1 _
    exact ⟨h0, h1, by simp⟩
  | cons z rest ih =>
    intro acc h0 h1 hall
    have hppos : (0 : Int) < p := by exact_mod_cast Nat.lt_of_lt_of_le Nat.zero_lt_two hp2
    obtain ⟨hz0, hz1⟩ := hall z (List.mem_cons_self z rest)
    obtain ⟨ht0, ht1, htcast⟩ := recon_term_spec p hp2 hpB z.1 (z.2.getD pos 0) hz0 hz1
    have hsum1 : acc + recon_term (p : Int) z.1 (z.2.getD pos 0) < (p : Int) * p := by nlinarith
    have hw : wrap64 (acc + recon_term (p : Int) z.1 (z.2.getD pos 0)) =
        acc + recon_term (p : Int) z.1 (z.2.getD pos 0) :=
      wrap64_eq_self (by omega) (by omega)
    rw [List.foldl_cons, hw]
    obtain ⟨ha0, ha1⟩ := emod_nonneg_lt (acc + recon_term (p : Int) z.1 (z.2.getD pos 0)) hppos
    obtain ⟨hr0, hr1, hrcast⟩ := ih _ ha0 ha1
      (fun z2 hz2 => hall z2 (List.mem_cons_of_mem z hz2))
    refine ⟨hr0, hr1, ?_⟩
    rw [hrcast, List.map_cons, List.sum_cons, ZMod.intCast_mod]
    push_cast
    rw [htcast]
    ring

theorem recon_accum_spec (p : ℕ) (hp2 : 2 ≤ p) (hpB : (p : Int) * p ≤ 2 ^ 63)
    (zs : List (Int × List Int)) (pos : ℕ)
    (hall : ∀ z ∈ zs, 0 ≤ z.1 ∧ z.1 < p) :
    0 ≤ recon_accum (p : Int) zs pos ∧ recon_accum (p : Int) zs pos < p ∧
      ((recon_accum (p : Int) zs pos : Int) : ZMod p) =
        (zs.map (fun z =>
          ((z.2.getD pos 0 : Int) : ZMod p) * ((z.1 : Int) : ZMod p))).sum := by
  have hppos : (0 : Int) < p := by exact_mod_cast Nat.lt_of_lt_of_le Nat.zero_lt_two hp2
  match zs with
  | [] =>
    exact ⟨le_refl 0, hppos, by simp [recon_accum]⟩
  | z :: rest =>
    obtain ⟨hz0, hz1⟩ := hall z (List.mem_cons_self z rest)
    obtain ⟨ht0, ht1, htcast⟩ := recon_term_spec p hp2 hpB z.1 (z.2.getD pos 0) hz0 hz1
    obtain ⟨hr0, hr1, hrcast⟩ := recon_foldl_spec p hp2 hpB pos rest
      (recon_term (p : Int) z.1 (z.2.getD pos 0)) ht0 ht1
      (fun z2 hz2 => hall z2 (List.mem_cons_of_mem z hz2))
    rw [recon_accum]
    refine ⟨hr0, hr1, ?_⟩
    rw [hrcast, htcast, List.map_cons, List.sum_cons]

theorem reconstruct_error_iff (share_arrays : List (List Int)) (xs : List Int)
    (p : ℕ) (hp : p.Prime) :
    (∃ e, reconstruct_from_shares share_arrays xs (p : Int) = .error e) ↔
      (xs.length ≠ share_arrays.length ∨ xs.length < 2 ∨
        (∃ i j, i < xs.length ∧ j < xs.length ∧ i ≠ j ∧
          xs.getD i 0 % (p : Int) = xs.getD j 0 % (p : Int)) ∨
        (share_arrays.headD []).length = 0) := by
  rw [reconstruct_from_shares]
  by_cases h1 : xs.length ≠ share_arrays.length
  · rw [if_pos h1]
    exact iff_of_true ⟨_, rfl⟩ (Or.inl h1)
  · rw [if_neg h1]
    by_cases h2 : xs.length < 2
    · rw [if_pos h2]
      exact iff_of_true ⟨_, rfl⟩ (Or.inr (Or.inl h2))
    · rw [if_neg h2]
      by_cases h3 : ∃ i j, i < xs.length ∧ j < xs.length ∧ i ≠ j ∧
          xs.getD i 0 % (p : Int) = xs.getD j 0 % (p : Int)
      · obtain ⟨e, he⟩ := (lagrange_coeffs_error_iff p hp xs).mpr h3
        rw [he, except_bind_error]
        exact iff_of_true ⟨_, rfl⟩ (Or.inr (Or.inr (Or.inl h3)))
      · have h3n := h3
        push_neg at h3n
        obtain ⟨L, hok, _, _⟩ := lagrange_coeffs_ok p hp xs h3n
        rw [hok, except_bind_ok]
        by_cases h4 : (share_arrays.headD []).length = 0
        · rw [if_pos h4]
          exact iff_of_true ⟨_, rfl⟩ (Or.inr (Or.inr (Or.inr h4)))
        · rw [if_neg h4]
          refine iff_of_false ?_ ?_
          · rintro ⟨e, he⟩
            cases he
          · rintro (hc | hc | hc | hc)
            · exact h1 hc
            · exact h2 hc
            · exact h3 hc
            · exact h4 hc

/-- C3 (amended): `reconstruct_from_shares` raises exactly when the lengths
differ, when fewer than 2 shares are supplied, when two x-coordinates
coincide mod `p` (a `ZeroDivisionError` surfacing from `modinv`), or when
the share arrays are zero-size; an x-coordinate that is zero mod `p` does
NOT raise. Whenever none of these hold — in particular even with fewer
shares than the split-time threshold — it returns an array. -/
theorem reconstruct_precondition_errors (share_arrays : List (List Int))
    (xs : List Int) (p : ℕ) (hp : p.Prime) :
    ((∃ e, reconstruct_from_shares share_arrays xs (p : Int) = .error e) ↔
      (xs.length ≠ share_arrays.length ∨ xs.length < 2 ∨
        (∃ i j, i < xs.length ∧ j < xs.length ∧ i ≠ j ∧
          xs.getD i 0 % (p : Int) = xs.getD j 0 % (p : Int)) ∨
        (share_arrays.headD []).length = 0)) ∧
    (¬(xs.length ≠ share_arrays.length ∨ xs.length < 2 ∨
        (∃ i j, i < xs.length ∧ j < xs.length ∧ i ≠ j ∧
          xs.getD i 0 % (p : Int) = xs.getD j 0 % (p : Int)) ∨
        (share_arrays.headD []).length = 0) →
      ∃ out, reconstruct_from_shares share_arrays xs (p : Int) = .ok out) := by
  have hiff := reconstruct_error_iff share_arrays xs p hp
  refine ⟨hiff, fun hno => ?_⟩
  rcases hres : reconstruct_from_shares share_arrays xs (p : Int) with e | out
  · exact absurd (hiff.mp ⟨e, hres⟩) hno
  · exact ⟨out, rfl⟩

/-- C3, counterexample to the claim as stated: the x-coordinates `[0, 1]`
contain a zero, yet `reconstruct_from_shares` raises nothing and returns an
array (the claim says a zero x must raise a validation error). -/
theorem reconstruct_zero_x_counterexample :
    reconstruct_from_shares [[1], [1]] [0, 1] 5 = .ok [1] ∧ (0 : Int) % 5 = 0 := by
  constructor
  · have hm45 : modinv 4 5 = .ok 4 := by simp [modinv, modinv_loop.eq_def]
    have hm15 : modinv 1 5 = .ok 1 := by simp [modinv, modinv_loop.eq_def]
    simp [reconstruct_from_shares, lagrange_coeffs_at_zero, map_except, lagrange_one_eq,
      List.range_succ, hm45, hm15, recon_accum, recon_term, dtype_cast, list_max,
      wrap64, wrap32, Except.bind, Except.map, List.zip, List.zipWith, List.getD]
  · decide

theorem reconstruct_precondition_witness :
    Nat.Prime 5 ∧
      (((∃ e, reconstruct_from_shares [[1], [1]] [1, 2] ((5 : ℕ) : Int) = .error e) ↔
        (([1, 2] : List Int).length ≠ ([[1], [1]] : List (List Int)).length ∨
          ([1, 2] : List Int).length < 2 ∨
          (∃ i j, i < ([1, 2] : List Int).length ∧ j < ([1, 2] : List Int).length ∧
            i ≠ j ∧ ([1, 2] : List Int).getD i 0 % ((5 : ℕ) : Int) =
              ([1, 2] : List Int).getD j 0 % ((5 : ℕ) : Int)) ∨
          (([[1], [1]] : List (List Int)).headD []).length = 0)) ∧
      (¬(([1, 2] : List Int).length ≠ ([[1], [1]] : List (List Int)).length ∨
          ([1, 2] : List Int).length < 2 ∨
          (∃ i j, i < ([1, 2] : List Int).length ∧ j < ([1, 2] : List Int).length ∧
            i ≠ j ∧ ([1, 2] : List Int).getD i 0 % ((5 : ℕ) : Int) =
              ([1, 2] : List Int).getD j 0 % ((5 : ℕ) : Int)) ∨
          (([[1], [1]] : List (List Int)).headD []).length = 0) →
        ∃ out, reconstruct_from_shares [[1], [1]] [1, 2] ((5 : ℕ) : Int) = .ok out)) :=
  ⟨by norm_num, reconstruct_precondition_errors [[1], [1]] [1, 2] 5 (by norm_num)⟩

theorem validate_loop_ok_iff (first : ShareData) :
    ∀ (rest : List ShareData) (i : ℕ),
      (validate_loop first rest i = .ok true ↔
        ∀ s ∈ rest, s.prime = first.prime ∧ s.mode = first.mode ∧
          s.original_shape = first.original_shape) := by
  intro rest
  induction rest with
  | nil => intro i; simp [validate_loop]
  | cons s rest1 ih =>
    intro i
    rw [validate_loop]
    by_cases hc : s.prime ≠ first.prime ∨ s.mode ≠ first.mode ∨
        s.original_shape ≠ first.original_shape
    · rw [if_pos hc]
      refine iff_of_false (by intro h; cases h) ?_
      intro hall
      obtain ⟨h1, h2, h3⟩ := hall s (List.mem_cons_self s rest1)
      rcases hc with h | h | h <;> exact h (by assumption)
    · rw [if_neg hc]
      push_neg at hc
      rw [ih (i + 1)]
      constructor
      · intro hall t ht
        rcases List.mem_cons.mp ht with rfl | ht1
        · exact ⟨hc.1, hc.2.1, hc.2.2⟩
        · exact hall t ht1
      · intro hall t ht
        exact hall t (List.mem_cons_of_mem s ht)

theorem validate_loop_first_mismatch (first : ShareData) :
    ∀ (rest : List ShareData) (i0 i : ℕ), i < rest.length →
      ¬((rest.getD i ⟨0, "", []⟩).prime = first.prime ∧
        (rest.getD i ⟨0, "", []⟩).mode = first.mode ∧
        (rest.getD i ⟨0, "", []⟩).original_shape = first.original_shape) →
      (∀ j, j < i → (rest.getD j ⟨0, "", []⟩).prime = first.prime ∧
        (rest.getD j ⟨0, "", []⟩).mode = first.mode ∧
        (rest.getD j ⟨0, "", []⟩).original_shape = first.original_shape) →
      validate_loop first rest i0 =
        .error (.valueError (mismatch_msg first (rest.getD i ⟨0, "", []⟩) (i0 + i))) := by
  intro rest
  induction rest with
  | nil =>
    intro i0 i hi
    simp at hi
  | cons s rest1 ih =>
    intro i0 i hi hbad hprev
    match i with
    | 0 =>
      simp only [List.getD_cons_zero] at hbad ⊢
      rw [validate_loop]
      rw [if_pos (by tauto)]
      rw [Nat.add_zero]
    | i1 + 1 =>
      have hs := hprev 0 (by omega)
      simp only [List.getD_cons_zero] at hs
      rw [validate_loop]
      rw [if_neg (by push_neg; exact ⟨hs.1, hs.2.1, hs.2.2⟩)]
      simp only [List.getD_cons_succ] at hbad ⊢
      have harg : i0 + (i1 + 1) = (i0 + 1) + i1 := by omega
      rw [harg]
      exact ih (i0 + 1) i1 (by simpa using hi) hbad
        (fun j hj => by simpa using hprev (j + 1) (by omega))

/-- C9: `validate_shares_compatible` on a nonempty list succeeds exactly when
every share's metadata (prime, color mode, original shape) equals the first
share's; otherwise it raises a `ValueError` naming the first share index
whose metadata differs, the message determined by the first differing field
(prime before mode before shape). The embedding's `ShareData` holds only
metadata — the share arrays are never consulted. -/
theorem validate_shares_compatible_correct (first : ShareData) (rest : List ShareData) :
    (validate_shares_compatible (first :: rest) = .ok true ↔
      ∀ s ∈ first :: rest, s.prime = first.prime ∧ s.mode = first.mode ∧
        s.original_shape = first.original_shape) ∧
    (∀ i, i < rest.length →
      ¬((rest.getD i ⟨0, "", []⟩).prime = first.prime ∧
        (rest.getD i ⟨0, "", []⟩).mode = first.mode ∧
        (rest.getD i ⟨0, "", []⟩).original_shape = first.original_shape) →
      (∀ j, j < i → (rest.getD j ⟨0, "", []⟩).prime = first.prime ∧
        (rest.getD j ⟨0, "", []⟩).mode = first.mode ∧
        (rest.getD j ⟨0, "", []⟩).original_shape = first.original_shape) →
      validate_shares_compatible (first :: rest) =
        .error (.valueError (mismatch_msg first (rest.getD i ⟨0, "", []⟩) (i + 1)))) := by
  constructor
  · show validate_loop first rest 1 = .ok true ↔ _
    rw [validate_loop_ok_iff first rest 1]
    constructor
    · intro hall t ht
      rcases List.mem_cons.mp ht with rfl | ht1
      · exact ⟨rfl, rfl, rfl⟩
      · exact hall t ht1
    · intro hall t ht
      exact hall t (List.mem_cons_of_mem first ht)
  · intro i hi hbad hprev
    show validate_loop first rest 1 = _
    have := validate_loop_first_mismatch first rest 1 i hi hbad hprev
    rwa [Nat.add_comm 1 i] at this

/-- C10: the compatibility validator enforces no minimum share count beyond
nonemptiness: a single-share list validates successfully (nothing to
mismatch) even though a ShareSet is defined as at least two shares, and only
the empty list raises; the two-share lower bound is enforced solely by
`reconstruct_from_shares`. -/
theorem validate_no_min_size (s : ShareData) (arr : List Int) (x p : Int) :
    validate_shares_compatible [s] = .ok true ∧
      validate_shares_compatible [] = .error (.valueError "No shares provided") ∧
      reconstruct_from_shares [arr] [x] p =
        .error (.valueError "Need at least 2 shares to reconstruct") := by
  refine ⟨rfl, rfl, ?_⟩
  rw [reconstruct_from_shares]
  rw [if_neg (by simp)]
  rw [if_pos (by simp)]

theorem getD_map_lt {α β : Type} (f : α → β) (l : List α) (i : ℕ)
    (hi : i < l.length) (da : α) (db : β) : (l.map f).getD i db = f (l.getD i da) := by
  simp [List.getD_eq_getElem?_getD, List.getElem?_map, List.getElem?_eq_getElem, hi]

theorem coeffs_at_length (secret : List Int) (rand : ℕ → ℕ → Int) (k pos : ℕ)
    (hk : 1 ≤ k) : (coeffs_at secret rand k pos).length = k := by
  simp [coeffs_at]
  omega

theorem poly_eval_cons_zero (c : Int) (cs : List Int) : poly_eval (c :: cs) 0 = c := by
  simp [poly_eval]

theorem zip_map_sum_eq (p : ℕ) :
    ∀ (u : List Int) (v : List (List Int)) (pos : ℕ), u.length = v.length →
      ((u.zip v).map (fun z =>
        ((z.2.getD pos 0 : Int) : ZMod p) * ((z.1 : Int) : ZMod p))).sum =
        ∑ i ∈ Finset.range u.length,
          (((v.getD i []).getD pos 0 : Int) : ZMod p) * ((u.getD i 0 : Int) : ZMod p) := by
  intro u
  induction u with
  | nil =>
    intro v pos h
    simp
  | cons a u ih =>
    intro v pos h
    match v with
    | [] => simp at h
    | b :: v1 =>
      rw [List.zip_cons_cons, List.map_cons, List.sum_cons]
      rw [List.length_cons, Finset.sum_range_succ']
      simp only [List.getD_cons_succ, List.getD_cons_zero]
      rw [ih v1 pos (by simpa using h)]
      rw [add_comm]

theorem range_map_getD_self (l : List Int) :
    (List.range l.length).map (fun pos => l.getD pos 0) = l := by
  refine List.ext_getElem (by simp) ?_
  intro i h1 h2
  have hi : i < l.length := by simpa using h2
  rw [List.getElem_map, List.getElem_range]
  exact List.getD_eq_getElem l 0 hi

theorem dtype_cast_id (l : List Int) (h : ∀ v ∈ l, 0 ≤ v ∧ v < 2 ^ 32) :
    dtype_cast l = l := by
  have hid : ∀ (b : Int), (∀ v ∈ l, v < b) → l.map (fun v => v % b) = l := by
    intro b hb
    have : l.map (fun v => v % b) = l.map id :=
      List.map_congr_left (fun v hv => Int.emod_eq_of_lt (h v hv).1 (hb v hv))
    rw [this, List.map_id]
  rw [dtype_cast]
  by_cases h1 : list_max l ≤ 255
  · rw [if_pos h1]
    exact hid _ (fun v hv => by
      have := list_max_is_ub l v hv
      omega)
  · rw [if_neg h1]
    by_cases h2 : list_max l ≤ 65535
    · rw [if_pos h2]
      exact hid _ (fun v hv => by
        have := list_max_is_ub l v hv
        omega)
    · rw [if_neg h2]
      exact hid _ (fun v hv => (h v hv).2)

theorem reconstruct_from_split_core (secret : List Int) (k p : ℕ)
    (rand : ℕ → ℕ → Int) (sel : List ℕ)
    (hp : p.Prime) (hpB : (p : Int) * p ≤ 2 ^ 63) (hk : 2 ≤ k)
    (hne : secret ≠ []) (hsec : ∀ v ∈ secret, 0 ≤ v ∧ v < p)
    (hrand : ∀ j pos, 0 ≤ rand j pos ∧ rand j pos < p)
    (hselpos : ∀ x ∈ sel, 1 ≤ x ∧ x < p) (hnodup : sel.Nodup)
    (hklen : k ≤ sel.length) :
    reconstruct_from_shares
      (sel.map (fun x => (List.range secret.length).map (fun pos =>
        wrap32 (eval_share (coeffs_at secret rand k pos) ((x : ℕ) : Int) (p : Int)))))
      (sel.map (fun x => ((x : ℕ) : Int))) (p : Int) = .ok secret := by
  haveI : Fact p.Prime := ⟨hp⟩
  have hp2 : 2 ≤ p := hp.two_le
  have hppos : (0 : Int) < p := by exact_mod_cast Nat.lt_of_lt_of_le Nat.zero_lt_two hp2
  obtain ⟨s0, t, rfl⟩ : ∃ s0 t, sel = s0 :: t := by
    match sel, hklen with
    | [], hklen => simp at hklen; omega
    | s0 :: t, _ => exact ⟨s0, t, rfl⟩
  set sel := s0 :: t with hseldef
  set shareArr : ℕ → List Int := fun x => (List.range secret.length).map (fun pos =>
    wrap32 (eval_share (coeffs_at secret rand k pos) ((x : ℕ) : Int) (p : Int)))
    with hshareArr
  set SA := sel.map shareArr with hSAdef
  set xs := sel.map (fun x => ((x : ℕ) : Int)) with hxsdef
  have hlxs : xs.length = sel.length := by rw [hxsdef]; exact List.length_map _ _
  have hlSA : SA.length = sel.length := by rw [hSAdef]; exact List.length_map _ _
  have hxsget : ∀ i, i < sel.length → xs.getD i 0 = ((sel.getD i 0 : ℕ) : Int) := by
    intro i hi
    rw [hxsdef]
    exact getD_map_lt _ sel i hi 0 0
  have hselmem : ∀ i, i < sel.length → sel.getD i 0 ∈ sel := by
    intro i hi
    rw [List.getD_eq_getElem sel 0 hi]
    exact List.getElem_mem hi
  have hbnd : ∀ i, i < sel.length → 1 ≤ sel.getD i 0 ∧ sel.getD i 0 < p :=
    fun i hi => hselpos _ (hselmem i hi)
  have hxmod : ∀ i, i < sel.length → xs.getD i 0 % (p : Int) = xs.getD i 0 := by
    intro i hi
    rw [hxsget i hi]
    exact Int.emod_eq_of_lt (by positivity) (by exact_mod_cast (hbnd i hi).2)
  have hgetinj : ∀ i j, i < sel.length → j < sel.length →
      sel.getD i 0 = sel.getD j 0 → i = j := by
    intro i j hi hj heq
    rw [List.getD_eq_getElem sel 0 hi, List.getD_eq_getElem sel 0 hj] at heq
    exact (List.Nodup.getElem_inj_iff hnodup).mp heq
  have hdist : ∀ i j, i < xs.length → j < xs.length → i ≠ j →
      xs.getD i 0 % (p : Int) ≠ xs.getD j 0 % (p : Int) := by
    intro i j hi hj hij heq
    rw [hlxs] at hi hj
    rw [hxmod i hi, hxmod j hj, hxsget i hi, hxsget j hj] at heq
    exact hij (hgetinj i j hi hj (by exact_mod_cast heq))
  obtain ⟨L, hok, hLlen, hLvals⟩ := lagrange_coeffs_ok p hp xs hdist
  have hSAget : ∀ i, i < sel.length → SA.getD i [] = shareArr (sel.getD i 0) := by
    intro i hi
    rw [hSAdef]
    exact getD_map_lt shareArr sel i hi 0 []
  have hsharev : ∀ (x : ℕ) (pos : ℕ), pos < secret.length →
      (shareArr x).getD pos 0 =
        eval_share (coeffs_at secret rand k pos) ((x : ℕ) : Int) (p : Int) ∧
      0 ≤ (shareArr x).getD pos 0 ∧ (shareArr x).getD pos 0 < p ∧
      (((shareArr x).getD pos 0 : Int) : ZMod p) =
        ((poly_eval (coeffs_at secret rand k pos) ((x : ℕ) : Int) : Int) : ZMod p) := by
    intro x pos hpos
    have hcb := coeffs_at_bounds secret rand k pos p hsec hrand hpos
    obtain ⟨he0, he1, heq⟩ :=
      eval_share_spec p hp2 hpB ((x : ℕ) : Int) (coeffs_at secret rand k pos) hcb
    have hg : (shareArr x).getD pos 0 =
        wrap32 (eval_share (coeffs_at secret rand k pos) ((x : ℕ) : Int) (p : Int)) := by
      rw [hshareArr]
      exact getD_map_range _ _ _ _ hpos
    have hw : wrap32 (eval_share (coeffs_at secret rand k pos) ((x : ℕ) : Int) (p : Int)) =
        eval_share (coeffs_at secret rand k pos) ((x : ℕ) : Int) (p : Int) :=
      wrap32_eq_self he0 (lt_trans he1 (p_lt_two_pow_32 p hpB))
    rw [hg, hw]
    refine ⟨rfl, he0, he1, ?_⟩
    rw [heq, ZMod.intCast_mod]
  rw [reconstruct_from_shares]
  rw [if_neg (not_not_intro (hlxs.trans hlSA.symm))]
  have hxl2 : 2 ≤ xs.length := by
    rw [hlxs]
    exact le_trans hk hklen
  rw [if_neg (by omega)]
  rw [hok, except_bind_ok]
  have hm : (SA.headD []).length = secret.length := by
    rw [hSAdef, hseldef]
    simp only [List.map_cons, List.headD_cons]
    rw [hshareArr]
    simp
  rw [if_neg (by rw [hm]; simpa using hne)]
  have hpt : ∀ pos, pos < secret.length →
      recon_accum (p : Int) (L.zip SA) pos % (p : Int) = secret.getD pos 0 := by
    intro pos hpos
    have hLmem : ∀ z ∈ L.zip SA, 0 ≤ z.1 ∧ z.1 < p := by
      intro z hz
      obtain ⟨hz1, _⟩ := List.of_mem_zip hz
      obtain ⟨i, hiL, hzi⟩ := List.mem_iff_getElem.mp hz1
      have hi2 : i < xs.length := by rw [← hLlen]; exact hiL
      have hv := hLvals i hi2
      rw [← List.getD_eq_getElem L 0 hiL] at hzi
      rw [← hzi]
      exact ⟨hv.1, hv.2.1⟩
    obtain ⟨ha0, ha1, hacast⟩ := recon_accum_spec p hp2 hpB (L.zip SA) pos hLmem
    rw [Int.emod_eq_of_lt ha0 ha1]
    have hsmem : secret.getD pos 0 ∈ secret := by
      rw [List.getD_eq_getElem secret 0 hpos]
      exact List.getElem_mem hpos
    refine int_eq_of_zmod_eq ha0 ha1 (hsec _ hsmem).1 (hsec _ hsmem).2 ?_
    rw [hacast, zip_map_sum_eq p L SA pos (by omega)]
    have hinj : Set.InjOn (fun i => (((sel.getD i 0 : ℕ) : Int) : ZMod p))
        (Finset.range sel.length) := by
      intro i hi j hj heq
      have hi2 : i < sel.length := by simpa using hi
      have hj2 : j < sel.length := by simpa using hj
      have hmodeq := (zmod_cast_eq_iff_emod p _ _).mp heq
      rw [Int.emod_eq_of_lt (by positivity) (by exact_mod_cast (hbnd i hi2).2),
        Int.emod_eq_of_lt (by positivity) (by exact_mod_cast (hbnd j hj2).2)] at hmodeq
      exact hgetinj i j hi2 hj2 (by exact_mod_cast hmodeq)
    have hcslen : (coeffs_at secret rand k pos).length ≤ sel.length := by
      rw [coeffs_at_length secret rand k pos (by omega)]
      exact hklen
    have hcore := poly_interp_core (p := p) (coeffs_at secret rand k pos)
      sel.length hcslen (fun i => ((sel.getD i 0 : ℕ) : Int)) hinj
    have hc0 : poly_eval (coeffs_at secret rand k pos) 0 = secret.getD pos 0 := by
      rw [coeffs_at]
      exact poly_eval_cons_zero _ _
    rw [hc0] at hcore
    rw [hLlen, hlxs]
    rw [hcore]
    refine Finset.sum_congr rfl (fun i hi => ?_)
    have hi2 : i < sel.length := Finset.mem_range.mp hi
    rw [hSAget i hi2]
    rw [(hsharev (sel.getD i 0) pos hpos).2.2.2]
    congr 1
    have hLv := (hLvals i (by omega)).2.2
    rw [hLv]
    have hprodn : ∀ S : Finset ℕ, (∀ j ∈ S, j < sel.length) →
        (∏ j ∈ S, (-((xs.getD j 0 : Int) : ZMod p))) =
          ∏ j ∈ S, (-((((sel.getD j 0 : ℕ) : Int) : Int) : ZMod p)) := by
      intro S hS
      refine Finset.prod_congr rfl (fun j hj => ?_)
      rw [hxsget j (hS j hj)]
    have hprodd : ∀ S : Finset ℕ, (∀ j ∈ S, j < sel.length) →
        (∏ j ∈ S, (((xs.getD i 0 : Int) : ZMod p) - ((xs.getD j 0 : Int) : ZMod p))) =
          ∏ j ∈ S, (((((sel.getD i 0 : ℕ) : Int) : Int) : ZMod p) -
            ((((sel.getD j 0 : ℕ) : Int) : Int) : ZMod p)) := by
      intro S hS
      refine Finset.prod_congr rfl (fun j hj => ?_)
      rw [hxsget j (hS j hj), hxsget i hi2]
    have hsub : ∀ j ∈ (Finset.range xs.length).erase i, j < sel.length := by
      intro j hj
      have := Finset.mem_range.mp (Finset.mem_of_mem_erase hj)
      omega
    rw [hlxs] at hsub ⊢
    rw [hprodn _ hsub, hprodd _ hsub]
  have hout : (List.range (SA.headD []).length).map
      (fun pos => recon_accum (p : Int) (L.zip SA) pos % (p : Int)) = secret := by
    rw [hm]
    have h1 : List.map (fun pos => recon_accum (p : Int) (L.zip SA) pos % (p : Int))
        (List.range secret.length) =
        List.map (fun pos => secret.getD pos 0) (List.range secret.length) :=
      List.map_congr_left (fun pos hpos => hpt pos (List.mem_range.mp hpos))
    rw [h1]
    exact range_map_getD_self secret
  rw [hout]
  rw [dtype_cast_id secret (fun v hv =>
    ⟨(hsec v hv).1, lt_trans (hsec v hv).2 (by exact_mod_cast p_lt_two_pow_32 p hpB)⟩)]

/-- C1 (amended): for `2 ≤ k ≤ n`, a prime `p` with `n < p` and
`p * p ≤ 2^63` (so all intermediate numpy `int64` products are exact and
share values fit the `uint32` store), and a secret array with all values in
`[0, p)`, splitting and then reconstructing from any `k` or more of the
produced shares — any subset of the x-coordinates `1..n`, in any order —
returns exactly the original secret array. -/
theorem split_reconstruct_roundtrip (secret : List Int) (n k p : ℕ)
    (rand : ℕ → ℕ → Int) (sel : List ℕ)
    (hp : p.Prime) (hpB : (p : Int) * p ≤ 2 ^ 63)
    (hk : 2 ≤ k) (hkn : k ≤ n) (hnp : n < p)
    (hne : secret ≠ []) (hsec : ∀ v ∈ secret, 0 ≤ v ∧ v < p)
    (hrand : ∀ j pos, 0 ≤ rand j pos ∧ rand j pos < p)
    (hsel : ∀ x ∈ sel, 1 ≤ x ∧ x ≤ n) (hnodup : sel.Nodup)
    (hklen : k ≤ sel.length) :
    ∃ shares : List (ℕ × List Int),
      split_image_into_shares secret n k (p : Int) rand = .ok shares ∧
      reconstruct_from_shares (sel.map (fun x => (shares.getD (x - 1) (0, [])).2))
        (sel.map (fun x => ((x : ℕ) : Int))) (p : Int) = .ok secret := by
  have hmax : list_max secret < (p : Int) := (hsec _ (list_max_mem secret hne)).2
  refine ⟨_, split_ok secret n k (p : Int) rand hk hkn hne hmax, ?_⟩
  have hmapeq : sel.map (fun x => (((List.range n).map (fun (i : ℕ) =>
      (i + 1, (List.range secret.length).map (fun pos =>
        wrap32 (eval_share (coeffs_at secret rand k pos)
          ((i : Int) + 1) (p : Int)))))).getD (x - 1) (0, [])).2) =
      sel.map (fun x => (List.range secret.length).map (fun pos =>
        wrap32 (eval_share (coeffs_at secret rand k pos) ((x : ℕ) : Int) (p : Int)))) := by
    refine List.map_congr_left (fun x hx => ?_)
    obtain ⟨hx1, hx2⟩ := hsel x hx
    have hxn : x - 1 < n := by omega
    rw [getD_map_range _ _ _ _ hxn]
    show (List.range secret.length).map (fun pos =>
        wrap32 (eval_share (coeffs_at secret rand k pos)
          (((x - 1 : ℕ) : Int) + 1) (p : Int))) = _
    have hcast : ((x - 1 : ℕ) : Int) + 1 = ((x : ℕ) : Int) := by omega
    simp only [hcast]
  rw [hmapeq]
  exact reconstruct_from_split_core secret k p rand sel hp hpB hk hne hsec hrand
    (fun x hx => ⟨(hsel x hx).1, by have := (hsel x hx).2; omega⟩) hnodup hklen

theorem split_reconstruct_witness :
    Nat.Prime 257 ∧
      (∃ shares : List (ℕ × List Int),
        split_image_into_shares [5] 3 2 ((257 : ℕ) : Int) (fun _ _ => 7) = .ok shares ∧
        reconstruct_from_shares
          (([1, 3] : List ℕ).map (fun x => (shares.getD (x - 1) (0, [])).2))
          (([1, 3] : List ℕ).map (fun x => ((x : ℕ) : Int))) ((257 : ℕ) : Int) =
          .ok [5]) :=
  ⟨by norm_num,
    split_reconstruct_roundtrip [5] 3 2 257 (fun _ _ => 7) [1, 3]
      (by norm_num) (by norm_num) (by norm_num) (by norm_num) (by norm_num)
      (by simp) (by intro v hv; fin_cases hv <;> norm_num)
      (fun j pos => by norm_num)
      (by intro x hx; fin_cases hx <;> norm_num)
      (by decide) (by decide)⟩

/-- C1, counterexample to the claim as stated for every `n, k, prime` with
`2 ≤ k ≤ n`: with prime 3, `n = 4`, `k = 2` and the valid secret `[0]`, the
shares at `x = 1` and `x = 4` form a 2-element subset of the produced
shares with distinct x-coordinates, yet reconstruction raises a
`ZeroDivisionError` (because `4 ≡ 1 (mod 3)`) instead of returning `[0]`. -/
theorem split_reconstruct_counterexample :
    Nat.Prime 3 ∧
      split_image_into_shares [0] 4 2 3 (fun _ _ => 0) =
        .ok [(1, [0]), (2, [0]), (3, [0]), (4, [0])] ∧
      reconstruct_from_shares [[0], [0]] [1, 4] 3 =
        .error (.zeroDivisionError "Inverse of 0 does not exist") := by
  refine ⟨by norm_num, ?_, ?_⟩
  · rfl
  · rfl
